import Mathlib

/-!
Verification of the photo-tagger core pipeline (scanner.py, database.py)
against its natural-language specification.

The Python source is shallowly embedded: the SQLite `files` table becomes a
list of records in rowid (insertion) order, SQL UPDATE statements become
pointwise maps over that list, and external effects (PIL image validation,
ffmpeg/ffprobe invocations, the user-supplied progress callback, file
contents) become explicit oracle parameters.  All definitions are executable.
-/

namespace PhotoTagger

/-! ### Duplicate resolver (scanner.py, `find_duplicates`)

A `FileRec` models one row of the `files` table, restricted to the columns
the resolver reads or writes: `id`, `file_type`, `file_hash` (the SHA-256
digest, NULL-able), `perceptual_hash` (modelled as the 64-bit value of the
hex phash string, NULL-able), and the two output columns `is_duplicate`
and `duplicate_of`.  The database is a `List FileRec` in rowid order, which
is the order SQLite scans the table and the order GROUP_CONCAT collects ids
for the exact-phase query. -/

structure FileRec where
  id : Nat
  file_type : String
  file_hash : Option String
  perceptual_hash : Option Nat
  is_duplicate : Bool
  duplicate_of : Option Nat
deriving DecidableEq, Repr

/-- Number of set bits of `n`, peeling one binary digit per step; the fuel
argument (`n` itself, an upper bound on the bit count) only forces structural
termination. -/
def popCountAux : Nat → Nat → Nat
  | 0, _ => 0
  | fuel + 1, n => if n = 0 then 0 else n % 2 + popCountAux fuel (n / 2)

/-- Number of set bits of a natural number; `imagehash`'s `hash_a - hash_b`
is the Hamming distance between the two 64-bit hashes, i.e. the popcount of
their XOR. -/
def popCount (n : Nat) : Nat := popCountAux n n

/-- Hamming distance between two 64-bit perceptual hashes
(`hash_a - hash_b` in scanner.py line 275). -/
def hamming (a b : Nat) : Nat := popCount (Nat.xor a b)

/-- `distance <= 8` threshold for "near duplicate" (scanner.py line 276). -/
def NEAR_THRESHOLD : Nat := 8

/-- Exact phase, effect on one record `r` whose strict predecessors in rowid
order are `seen`: the SQL query groups rows sharing a non-null `file_hash`
and keeps `ids[0]` — the first group member — as the original, marking every
later member a duplicate of it.  So `r` is updated exactly when some earlier
row has the same non-null hash, and `duplicate_of` is set to the id of the
first such row (scanner.py lines 244-259). -/
def exactMark (seen : List FileRec) (r : FileRec) : FileRec :=
  match r.file_hash with
  | none => r
  | some h =>
    match seen.find? (fun s => s.file_hash == some h) with
    | none => r
    | some first => { r with is_duplicate := true, duplicate_of := some first.id }

/-- Exact phase over the whole table, threading the processed prefix.
The SELECT runs before any UPDATE, so group membership is computed from the
pre-phase rows; the UPDATEs touch only `is_duplicate`/`duplicate_of`, which
the grouping does not read, so consulting the original prefix is faithful. -/
def exactPhaseAux (seen : List FileRec) : List FileRec → List FileRec
  | [] => []
  | r :: rest => exactMark seen r :: exactPhaseAux (seen ++ [r]) rest

def exactPhase (db : List FileRec) : List FileRec := exactPhaseAux [] db

/-- One near-duplicate UPDATE
(`SET is_duplicate = 1, duplicate_of = idA WHERE id = idB AND is_duplicate = 0`),
effect on a single row (scanner.py lines 277-280). -/
def markNearRec (idA idB : Nat) (r : FileRec) : FileRec :=
  if r.id == idB && !r.is_duplicate then
    { r with is_duplicate := true, duplicate_of := some idA }
  else r

/-- The same UPDATE over the whole table. -/
def markNear (idA idB : Nat) (db : List FileRec) : List FileRec :=
  db.map (markNearRec idA idB)

/-- Inner loop of the pairwise pass: fixed first element `(idA, hA)`,
running over the snapshot entries after it (`j > i`). -/
def nearInner (idA hA : Nat) : List (Nat × Nat) → List FileRec → List FileRec
  | [], db => db
  | (idB, hB) :: rest, db =>
    nearInner idA hA rest
      (if hamming hA hB ≤ NEAR_THRESHOLD then markNear idA idB db else db)

/-- Outer loop of the pairwise pass over the snapshot list. -/
def nearLoop : List (Nat × Nat) → List FileRec → List FileRec
  | [], db => db
  | (idA, hA) :: rest, db => nearLoop rest (nearInner idA hA rest db)

/-- `nearInner`'s action on a single row (the UPDATE conditions only read
the row itself, so the table-level loop is a pointwise map). -/
def nearInnerRec (idA hA : Nat) : List (Nat × Nat) → FileRec → FileRec
  | [], r => r
  | (idB, hB) :: rest, r =>
    nearInnerRec idA hA rest
      (if hamming hA hB ≤ NEAR_THRESHOLD then markNearRec idA idB r else r)

/-- `nearLoop`'s action on a single row. -/
def nearLoopRec : List (Nat × Nat) → FileRec → FileRec
  | [], r => r
  | (idA, hA) :: rest, r => nearLoopRec rest (nearInnerRec idA hA rest r)

/-- Snapshot taken between the two phases (scanner.py lines 262-270):
id and perceptual hash of every image row with a non-null perceptual hash
that is not already marked duplicate, in rowid order. -/
def phashSnapshot (db : List FileRec) : List (Nat × Nat) :=
  (db.filter fun r =>
    r.perceptual_hash.isSome && !r.is_duplicate && r.file_type == "image").map
    fun r => (r.id, r.perceptual_hash.getD 0)

/-- `find_duplicates` (scanner.py lines 241-282): exact phase by digest,
then the greedy pairwise near-duplicate pass over the snapshot. -/
def find_duplicates (db : List FileRec) : List FileRec :=
  let db1 := exactPhase db
  nearLoop (phashSnapshot db1) db1

/-- All records with the given digest, in rowid order (the spec's "group
of records sharing the same non-null digest"). -/
def hashGroup (db : List FileRec) (h : String) : List FileRec :=
  db.filter (fun r => r.file_hash == some h)

/-! #### Pointwise structure of the resolver -/

theorem markNearRec_id (a b : Nat) (r : FileRec) : (markNearRec a b r).id = r.id := by
  unfold markNearRec; split <;> rfl

theorem markNearRec_core (a b : Nat) (r : FileRec) :
    (markNearRec a b r).id = r.id ∧ (markNearRec a b r).file_type = r.file_type ∧
    (markNearRec a b r).file_hash = r.file_hash ∧
    (markNearRec a b r).perceptual_hash = r.perceptual_hash := by
  unfold markNearRec; split <;> exact ⟨rfl, rfl, rfl, rfl⟩

theorem markNearRec_of_dup (a b : Nat) (r : FileRec) (h : r.is_duplicate = true) :
    markNearRec a b r = r := by
  unfold markNearRec
  split
  · next hc =>
    rw [Bool.and_eq_true] at hc
    rw [h] at hc
    simp at hc
  · rfl

theorem markNearRec_dup_of_id (a b : Nat) (r : FileRec) (h : r.id = b) :
    (markNearRec a b r).is_duplicate = true := by
  unfold markNearRec
  split
  · rfl
  · next hc =>
    rw [Bool.and_eq_true] at hc
    cases hd : r.is_duplicate
    · exact absurd ⟨by simp [h], by simp [hd]⟩ hc
    · rfl

theorem nearInnerRec_cons (a ha b hb : Nat) (rest : List (Nat × Nat)) (r : FileRec) :
    nearInnerRec a ha ((b, hb) :: rest) r =
      nearInnerRec a ha rest
        (if hamming ha hb ≤ NEAR_THRESHOLD then markNearRec a b r else r) := rfl

theorem nearLoopRec_cons (a ha : Nat) (rest : List (Nat × Nat)) (r : FileRec) :
    nearLoopRec ((a, ha) :: rest) r = nearLoopRec rest (nearInnerRec a ha rest r) := rfl

theorem nearInnerRec_core (a ha : Nat) (ps : List (Nat × Nat)) (r : FileRec) :
    (nearInnerRec a ha ps r).id = r.id ∧ (nearInnerRec a ha ps r).file_type = r.file_type ∧
    (nearInnerRec a ha ps r).file_hash = r.file_hash ∧
    (nearInnerRec a ha ps r).perceptual_hash = r.perceptual_hash := by
  induction ps generalizing r with
  | nil => exact ⟨rfl, rfl, rfl, rfl⟩
  | cons p rest ih =>
    obtain ⟨b, hb⟩ := p
    rw [nearInnerRec_cons]
    by_cases hle : hamming ha hb ≤ NEAR_THRESHOLD
    · rw [if_pos hle]
      obtain ⟨h1, h2, h3, h4⟩ := ih (markNearRec a b r)
      obtain ⟨g1, g2, g3, g4⟩ := markNearRec_core a b r
      exact ⟨h1.trans g1, h2.trans g2, h3.trans g3, h4.trans g4⟩
    · rw [if_neg hle]; exact ih r

theorem nearInnerRec_of_dup (a ha : Nat) (ps : List (Nat × Nat)) (r : FileRec)
    (h : r.is_duplicate = true) : nearInnerRec a ha ps r = r := by
  induction ps with
  | nil => rfl
  | cons p rest ih =>
    obtain ⟨b, hb⟩ := p
    rw [nearInnerRec_cons]
    by_cases hle : hamming ha hb ≤ NEAR_THRESHOLD
    · rw [if_pos hle, markNearRec_of_dup a b r h]; exact ih
    · rw [if_neg hle]; exact ih

theorem nearLoopRec_core (ps : List (Nat × Nat)) (r : FileRec) :
    (nearLoopRec ps r).id = r.id ∧ (nearLoopRec ps r).file_type = r.file_type ∧
    (nearLoopRec ps r).file_hash = r.file_hash ∧
    (nearLoopRec ps r).perceptual_hash = r.perceptual_hash := by
  induction ps generalizing r with
  | nil => exact ⟨rfl, rfl, rfl, rfl⟩
  | cons p rest ih =>
    obtain ⟨a, ha⟩ := p
    rw [nearLoopRec_cons]
    obtain ⟨h1, h2, h3, h4⟩ := ih (nearInnerRec a ha rest r)
    obtain ⟨g1, g2, g3, g4⟩ := nearInnerRec_core a ha rest r
    exact ⟨h1.trans g1, h2.trans g2, h3.trans g3, h4.trans g4⟩

theorem nearLoopRec_of_dup (ps : List (Nat × Nat)) (r : FileRec)
    (h : r.is_duplicate = true) : nearLoopRec ps r = r := by
  induction ps with
  | nil => rfl
  | cons p rest ih =>
    obtain ⟨a, ha⟩ := p
    rw [nearLoopRec_cons, nearInnerRec_of_dup a ha rest r h]
    exact ih

theorem nearInner_map (a ha : Nat) (ps : List (Nat × Nat)) (db : List FileRec) :
    nearInner a ha ps db = db.map (nearInnerRec a ha ps) := by
  induction ps generalizing db with
  | nil =>
    have h : ∀ r ∈ db, nearInnerRec a ha [] r = id r := fun r _ => rfl
    rw [List.map_congr_left h, List.map_id]
    rfl
  | cons p rest ih =>
    obtain ⟨b, hb⟩ := p
    have hstep : nearInner a ha ((b, hb) :: rest) db =
        nearInner a ha rest
          (if hamming ha hb ≤ NEAR_THRESHOLD then markNear a b db else db) := rfl
    rw [hstep]
    by_cases hle : hamming ha hb ≤ NEAR_THRESHOLD
    · rw [if_pos hle, ih, markNear, List.map_map]
      apply List.map_congr_left
      intro r _
      rw [nearInnerRec_cons, if_pos hle]
      rfl
    · rw [if_neg hle, ih]
      apply List.map_congr_left
      intro r _
      rw [nearInnerRec_cons, if_neg hle]

theorem nearLoop_map (ps : List (Nat × Nat)) (db : List FileRec) :
    nearLoop ps db = db.map (nearLoopRec ps) := by
  induction ps generalizing db with
  | nil =>
    have h : ∀ r ∈ db, nearLoopRec [] r = id r := fun r _ => rfl
    rw [List.map_congr_left h, List.map_id]
    rfl
  | cons p rest ih =>
    obtain ⟨a, ha⟩ := p
    have hstep : nearLoop ((a, ha) :: rest) db = nearLoop rest (nearInner a ha rest db) := rfl
    rw [hstep, ih, nearInner_map, List.map_map]
    apply List.map_congr_left
    intro r _
    rfl

/-- If the pair `(b, hb)` still lies ahead in the inner loop and is within
threshold, the row with id `b` ends the inner loop marked duplicate. -/
theorem nearInnerRec_dup_of_mem (a ha b hb : Nat) (ps : List (Nat × Nat))
    (hle : hamming ha hb ≤ NEAR_THRESHOLD) :
    ∀ r : FileRec, (b, hb) ∈ ps → r.id = b →
      (nearInnerRec a ha ps r).is_duplicate = true := by
  induction ps with
  | nil => intro r hmem _; cases hmem
  | cons p rest ih =>
    intro r hmem hid
    obtain ⟨c, hc⟩ := p
    rw [nearInnerRec_cons]
    rcases List.mem_cons.mp hmem with heq | hmem'
    · cases heq
      rw [if_pos hle]
      have h1 : (markNearRec a b r).is_duplicate = true := markNearRec_dup_of_id a b r hid
      rw [nearInnerRec_of_dup a ha rest _ h1]
      exact h1
    · by_cases hle2 : hamming ha hc ≤ NEAR_THRESHOLD
      · rw [if_pos hle2]
        exact ih (markNearRec a c r) hmem' ((markNearRec_id a c r).trans hid)
      · rw [if_neg hle2]
        exact ih r hmem' hid

/-- After the pairwise pass, the second element of any in-threshold ordered
pair of the snapshot is marked duplicate. -/
theorem nearLoopRec_dup_of_pair (pa pb : Nat × Nat) (ps : List (Nat × Nat))
    (hle : hamming pa.2 pb.2 ≤ NEAR_THRESHOLD) :
    ∀ r : FileRec, [pa, pb].Sublist ps → r.id = pb.1 →
      (nearLoopRec ps r).is_duplicate = true := by
  induction ps with
  | nil =>
    intro r hsub _
    exact absurd hsub (by simp)
  | cons p rest ih =>
    intro r hsub hid
    obtain ⟨a, ha⟩ := p
    rw [nearLoopRec_cons]
    cases hsub with
    | cons _ hsub' =>
      exact ih (nearInnerRec a ha rest r) hsub'
        (((nearInnerRec_core a ha rest r).1).trans hid)
    | cons₂ _ hsub₂ =>
      have hmem : pb ∈ rest := (List.singleton_sublist).mp hsub₂
      have h1 : (nearInnerRec a ha rest r).is_duplicate = true := by
        obtain ⟨b, hb⟩ := pb
        exact nearInnerRec_dup_of_mem a ha b hb rest hle r hmem hid
      rw [nearLoopRec_of_dup rest _ h1]
      exact h1

/-- A row whose id never appears as the second element of an in-threshold
pair ahead in the inner loop is left untouched by it. -/
theorem nearInnerRec_eq_self (a ha : Nat) (ps : List (Nat × Nat)) (r : FileRec) :
    (∀ p ∈ ps, hamming ha p.2 ≤ NEAR_THRESHOLD → r.id = p.1 → r.is_duplicate = true) →
    nearInnerRec a ha ps r = r := by
  induction ps with
  | nil => intro _; rfl
  | cons p rest ih =>
    intro H
    obtain ⟨b, hb⟩ := p
    rw [nearInnerRec_cons]
    have hstep : (if hamming ha hb ≤ NEAR_THRESHOLD then markNearRec a b r else r) = r := by
      by_cases hle : hamming ha hb ≤ NEAR_THRESHOLD
      · rw [if_pos hle]
        unfold markNearRec
        split
        · next hc =>
          rw [Bool.and_eq_true] at hc
          have hid : r.id = b := by simpa using hc.1
          have hdup := H (b, hb) (List.mem_cons_self _ _) hle hid
          rw [hdup] at hc
          simp at hc
        · rfl
      · rw [if_neg hle]
    rw [hstep]
    exact ih (fun p hp => H p (List.mem_cons_of_mem _ hp))

/-- A row whose id never appears as the second element of an in-threshold
ordered pair of the snapshot is a fixed point of the pairwise pass. -/
theorem nearLoopRec_eq_self (ps : List (Nat × Nat)) (r : FileRec) :
    (∀ pa pb : Nat × Nat, [pa, pb].Sublist ps → hamming pa.2 pb.2 ≤ NEAR_THRESHOLD →
      r.id = pb.1 → r.is_duplicate = true) →
    nearLoopRec ps r = r := by
  induction ps with
  | nil => intro _; rfl
  | cons p rest ih =>
    intro H
    obtain ⟨a, ha⟩ := p
    rw [nearLoopRec_cons]
    have hinner : nearInnerRec a ha rest r = r := by
      apply nearInnerRec_eq_self
      intro q hq hle hid
      exact H (a, ha) q (List.Sublist.cons₂ _ ((List.singleton_sublist).mpr hq)) hle hid
    rw [hinner]
    apply ih
    intro pa pb hsub hle hid
    exact H pa pb (List.Sublist.cons _ hsub) hle hid

/-- The pairwise pass either leaves a row unchanged, or the row was not yet a
duplicate and gets marked with `duplicate_of` pointing at the first element
of some in-threshold ordered pair of the snapshot whose second element is
this row's id. -/
theorem nearLoopRec_eq_or_marked (ps : List (Nat × Nat)) :
    ∀ r : FileRec, nearLoopRec ps r = r ∨
      (r.is_duplicate = false ∧ ∃ pa pb : Nat × Nat, [pa, pb].Sublist ps ∧ pb.1 = r.id ∧
        hamming pa.2 pb.2 ≤ NEAR_THRESHOLD ∧
        nearLoopRec ps r = { r with is_duplicate := true, duplicate_of := some pa.1 }) := by
  have inner : ∀ (a ha : Nat) (ps : List (Nat × Nat)) (r : FileRec),
      nearInnerRec a ha ps r = r ∨
        (r.is_duplicate = false ∧ ∃ p ∈ ps, p.1 = r.id ∧
          hamming ha p.2 ≤ NEAR_THRESHOLD ∧
          nearInnerRec a ha ps r = { r with is_duplicate := true, duplicate_of := some a }) := by
    intro a ha ps
    induction ps with
    | nil => intro r; left; rfl
    | cons p rest ih =>
      intro r
      obtain ⟨b, hb⟩ := p
      rw [nearInnerRec_cons]
      by_cases hle : hamming ha hb ≤ NEAR_THRESHOLD
      · rw [if_pos hle]
        by_cases hcond : (r.id == b && !r.is_duplicate) = true
        · have hm : markNearRec a b r =
              { r with is_duplicate := true, duplicate_of := some a } := by
            unfold markNearRec
            rw [if_pos hcond]
          rw [Bool.and_eq_true] at hcond
          rw [hm, nearInnerRec_of_dup a ha rest _ rfl]
          right
          refine ⟨by simpa using hcond.2, (b, hb), List.mem_cons_self _ _, ?_, hle, rfl⟩
          have : r.id = b := by simpa using hcond.1
          exact this.symm
        · have hm : markNearRec a b r = r := by
            unfold markNearRec
            rw [if_neg hcond]
          rw [hm]
          rcases ih r with h | ⟨hf, q, hq, g1, g2, g3⟩
          · left; exact h
          · right; exact ⟨hf, q, List.mem_cons_of_mem _ hq, g1, g2, g3⟩
      · rw [if_neg hle]
        rcases ih r with h | ⟨hf, q, hq, g1, g2, g3⟩
        · left; exact h
        · right; exact ⟨hf, q, List.mem_cons_of_mem _ hq, g1, g2, g3⟩
  intro r
  show nearLoopRec ps r = r ∨ _
  induction ps with
  | nil => left; rfl
  | cons p rest ih =>
    obtain ⟨a, ha⟩ := p
    rw [nearLoopRec_cons]
    rcases inner a ha rest r with h | ⟨hf, q, hq, g1, g2, g3⟩
    · rw [h]
      rcases ih with h' | ⟨hf, pa, pb, hsub, g1, g2, g3⟩
      · left; exact h'
      · right; exact ⟨hf, pa, pb, List.Sublist.cons _ hsub, g1, g2, g3⟩
    · rw [g3, nearLoopRec_of_dup rest _ rfl]
      right
      exact ⟨hf, (a, ha), q, List.Sublist.cons₂ _ ((List.singleton_sublist).mpr hq),
        g1, g2, rfl⟩

/-- The pairwise pass either fixes a row or marks it duplicate. -/
theorem nearLoopRec_eq_or_dup (ps : List (Nat × Nat)) (r : FileRec) :
    nearLoopRec ps r = r ∨ (nearLoopRec ps r).is_duplicate = true := by
  rcases nearLoopRec_eq_or_marked ps r with h | ⟨_, _, _, _, _, _, h⟩
  · left; exact h
  · right; rw [h]

/-! #### Positional characterization of the exact phase -/

theorem exactMark_core (seen : List FileRec) (r : FileRec) :
    (exactMark seen r).id = r.id ∧ (exactMark seen r).file_type = r.file_type ∧
    (exactMark seen r).file_hash = r.file_hash ∧
    (exactMark seen r).perceptual_hash = r.perceptual_hash := by
  cases hr : r.file_hash with
  | none => simp [exactMark, hr]
  | some h =>
    cases hf : seen.find? (fun s => s.file_hash == some h) with
    | none => simp [exactMark, hr, hf]
    | some first => simp [exactMark, hr, hf]

theorem exactPhaseAux_length (seen l : List FileRec) :
    (exactPhaseAux seen l).length = l.length := by
  induction l generalizing seen with
  | nil => rfl
  | cons r rest ih =>
    have hstep : exactPhaseAux seen (r :: rest) =
        exactMark seen r :: exactPhaseAux (seen ++ [r]) rest := rfl
    rw [hstep, List.length_cons, List.length_cons, ih]

theorem exactPhase_length (db : List FileRec) : (exactPhase db).length = db.length :=
  exactPhaseAux_length [] db

theorem exactPhaseAux_getElem (seen l : List FileRec) :
    ∀ i : Nat, (exactPhaseAux seen l)[i]? =
      (l[i]?).map (fun r => exactMark (seen ++ l.take i) r) := by
  induction l generalizing seen with
  | nil => intro i; simp [exactPhaseAux]
  | cons r rest ih =>
    intro i
    have hstep : exactPhaseAux seen (r :: rest) =
        exactMark seen r :: exactPhaseAux (seen ++ [r]) rest := rfl
    rw [hstep]
    cases i with
    | zero => simp
    | succ j =>
      simp only [List.getElem?_cons_succ]
      rw [ih (seen ++ [r]) j]
      simp [List.append_assoc]

theorem exactPhase_getElem (db : List FileRec) (i : Nat) :
    (exactPhase db)[i]? = (db[i]?).map (fun r => exactMark (db.take i) r) := by
  have h := exactPhaseAux_getElem [] db i
  simpa using h

theorem find_duplicates_eq_map (db : List FileRec) :
    find_duplicates db =
      (exactPhase db).map (nearLoopRec (phashSnapshot (exactPhase db))) := by
  unfold find_duplicates
  rw [nearLoop_map]

theorem find_duplicates_length (db : List FileRec) :
    (find_duplicates db).length = db.length := by
  rw [find_duplicates_eq_map, List.length_map, exactPhase_length]

theorem find_duplicates_getElem (db : List FileRec) (i : Nat) :
    (find_duplicates db)[i]? = (db[i]?).map
      (fun r => nearLoopRec (phashSnapshot (exactPhase db)) (exactMark (db.take i) r)) := by
  rw [find_duplicates_eq_map, List.getElem?_map, exactPhase_getElem]
  cases db[i]? <;> rfl

theorem exactMark_none (seen : List FileRec) (r : FileRec) (h : r.file_hash = none) :
    exactMark seen r = r := by
  unfold exactMark
  rw [h]

theorem exactMark_some_none (seen : List FileRec) (r : FileRec) (h : String)
    (hh : r.file_hash = some h)
    (hf : seen.find? (fun s => s.file_hash == some h) = none) : exactMark seen r = r := by
  simp [exactMark, hh, hf]

theorem exactMark_some_some (seen : List FileRec) (r : FileRec) (h : String) (first : FileRec)
    (hh : r.file_hash = some h)
    (hf : seen.find? (fun s => s.file_hash == some h) = some first) :
    exactMark seen r = { r with is_duplicate := true, duplicate_of := some first.id } := by
  simp [exactMark, hh, hf]

/-- Relation between a row and its image under the resolver's updates:
the grouping-relevant columns agree. -/
def CoreRel (x y : FileRec) : Prop := y.file_hash = x.file_hash ∧ y.id = x.id

theorem coreRel_trans {x y z : FileRec} (h1 : CoreRel x y) (h2 : CoreRel y z) : CoreRel x z :=
  ⟨h2.1.trans h1.1, h2.2.trans h1.2⟩

theorem forall₂_coreRel_trans :
    ∀ {l m n : List FileRec}, List.Forall₂ CoreRel l m → List.Forall₂ CoreRel m n →
      List.Forall₂ CoreRel l n := by
  intro l m n h1
  induction h1 generalizing n with
  | nil =>
    intro h2
    cases h2
    exact List.Forall₂.nil
  | cons hxy _ ih =>
    intro h2
    cases h2 with
    | cons hyz htail => exact List.Forall₂.cons (coreRel_trans hxy hyz) (ih htail)

theorem forall₂_coreRel_map (F : FileRec → FileRec) (hF : ∀ r, CoreRel r (F r)) :
    ∀ l : List FileRec, List.Forall₂ CoreRel l (l.map F) := by
  intro l
  induction l with
  | nil => exact List.Forall₂.nil
  | cons x t ih => exact List.Forall₂.cons (hF x) ih

theorem forall₂_coreRel_exactPhaseAux :
    ∀ (seen l : List FileRec), List.Forall₂ CoreRel l (exactPhaseAux seen l) := by
  intro seen l
  induction l generalizing seen with
  | nil => exact List.Forall₂.nil
  | cons x t ih =>
    have hstep : exactPhaseAux seen (x :: t) =
        exactMark seen x :: exactPhaseAux (seen ++ [x]) t := rfl
    rw [hstep]
    obtain ⟨_, _, h3, _⟩ := exactMark_core seen x
    exact List.Forall₂.cons ⟨h3, (exactMark_core seen x).1⟩ (ih (seen ++ [x]))

theorem forall₂_coreRel_find_duplicates (db : List FileRec) :
    List.Forall₂ CoreRel db (find_duplicates db) := by
  rw [find_duplicates_eq_map]
  apply forall₂_coreRel_trans (forall₂_coreRel_exactPhaseAux [] db)
  apply forall₂_coreRel_map
  intro r
  obtain ⟨_, _, h3, _⟩ := nearLoopRec_core (phashSnapshot (exactPhase db)) r
  exact ⟨h3, (nearLoopRec_core (phashSnapshot (exactPhase db)) r).1⟩

/-- The grouping query reads only `file_hash` and reports only ids, so
`find?` over two `CoreRel`-related prefixes is itself `CoreRel`-related. -/
theorem find?_hash_congr (h : String) :
    ∀ {seen seen' : List FileRec}, List.Forall₂ CoreRel seen seen' →
      (Option.map FileRec.id (seen'.find? (fun s => s.file_hash == some h)) =
        Option.map FileRec.id (seen.find? (fun s => s.file_hash == some h))) ∧
      ((seen'.find? (fun s => s.file_hash == some h)).isSome =
        (seen.find? (fun s => s.file_hash == some h)).isSome) := by
  intro seen seen' H
  induction H with
  | nil => exact ⟨rfl, rfl⟩
  | cons hxy htail ih =>
    next x y t t' =>
    by_cases hp : (x.file_hash == some h) = true
    · have hp' : (y.file_hash == some h) = true := by rw [hxy.1]; exact hp
      rw [@List.find?_cons_of_pos _ (fun s => s.file_hash == some h) x t hp,
        @List.find?_cons_of_pos _ (fun s => s.file_hash == some h) y t' hp']
      exact ⟨by simp [hxy.2], rfl⟩
    · have hp' : ¬(y.file_hash == some h) = true := by rw [hxy.1]; exact hp
      rw [@List.find?_cons_of_neg _ (fun s => s.file_hash == some h) x t hp,
        @List.find?_cons_of_neg _ (fun s => s.file_hash == some h) y t' hp']
      exact ih

/-- `exactMark` depends on the prefix only through the grouping-relevant
columns. -/
theorem exactMark_congr (seen seen' : List FileRec)
    (H : List.Forall₂ CoreRel seen seen') (r : FileRec) :
    exactMark seen' r = exactMark seen r := by
  cases hr : r.file_hash with
  | none => rw [exactMark_none seen r hr, exactMark_none seen' r hr]
  | some h =>
    obtain ⟨hids, hsome⟩ := find?_hash_congr h H
    cases hf : seen.find? (fun s => s.file_hash == some h) with
    | none =>
      have hf' : seen'.find? (fun s => s.file_hash == some h) = none := by
        rw [hf] at hsome
        exact Option.not_isSome_iff_eq_none.mp (by simp [hsome])
      rw [exactMark_some_none seen r h hr hf, exactMark_some_none seen' r h hr hf']
    | some first =>
      rw [hf] at hids hsome
      cases hf' : seen'.find? (fun s => s.file_hash == some h) with
      | none => rw [hf'] at hsome; simp at hsome
      | some first' =>
        rw [hf'] at hids
        simp at hids
        rw [exactMark_some_some seen r h first hr hf,
          exactMark_some_some seen' r h first' hr hf']
        rw [hids]

theorem phashSnapshot_cons (x : FileRec) (l : List FileRec) :
    phashSnapshot (x :: l) =
      if (x.perceptual_hash.isSome && !x.is_duplicate && x.file_type == "image") = true
      then (x.id, x.perceptual_hash.getD 0) :: phashSnapshot l
      else phashSnapshot l := by
  unfold phashSnapshot
  rw [List.filter_cons]
  by_cases hp : (x.perceptual_hash.isSome && !x.is_duplicate && x.file_type == "image") = true
  · rw [if_pos hp, if_pos hp, List.map_cons]
  · rw [if_neg hp, if_neg hp]

/-- Applying an update that either fixes a row or marks it duplicate can only
shrink the snapshot (surviving entries keep their position and value). -/
theorem phashSnapshot_map_sublist (F : FileRec → FileRec)
    (hF : ∀ r, F r = r ∨ (F r).is_duplicate = true) :
    ∀ l : List FileRec, (phashSnapshot (l.map F)).Sublist (phashSnapshot l) := by
  intro l
  induction l with
  | nil => simp [phashSnapshot]
  | cons x t ih =>
    rw [List.map_cons, phashSnapshot_cons, phashSnapshot_cons]
    by_cases hpx : ((F x).perceptual_hash.isSome && !(F x).is_duplicate &&
        (F x).file_type == "image") = true
    · have hfix : F x = x := by
        rcases hF x with h | h
        · exact h
        · rw [Bool.and_eq_true, Bool.and_eq_true] at hpx
          rw [h] at hpx
          simp at hpx
      rw [if_pos hpx, hfix]
      rw [hfix] at hpx
      rw [if_pos hpx]
      exact List.Sublist.cons₂ _ ih
    · rw [if_neg hpx]
      by_cases hx : (x.perceptual_hash.isSome && !x.is_duplicate &&
          x.file_type == "image") = true
      · rw [if_pos hx]
        exact List.Sublist.cons _ ih
      · rw [if_neg hx]
        exact ih

/-- The exact phase is a no-op on the output of a full resolver run: it
re-marks exactly the rows it already marked, with the same links. -/
theorem exactPhase_find_duplicates (db : List FileRec) :
    exactPhase (find_duplicates db) = find_duplicates db := by
  apply List.ext_getElem?
  intro i
  rw [exactPhase_getElem, find_duplicates_getElem]
  cases hget : db[i]? with
  | none => rfl
  | some r =>
    simp only [Option.map_some']
    congr 1
    set ps := phashSnapshot (exactPhase db) with hps
    set e := exactMark (db.take i) r with he
    set x := nearLoopRec ps e with hx
    have hpre : exactMark ((find_duplicates db).take i) x = exactMark (db.take i) x := by
      apply exactMark_congr
      exact List.forall₂_take i (forall₂_coreRel_find_duplicates db)
    rw [hpre]
    have hxhash : x.file_hash = r.file_hash :=
      ((nearLoopRec_core ps e).2.2.1).trans ((exactMark_core (db.take i) r).2.2.1)
    cases hr : r.file_hash with
    | none => exact exactMark_none _ x (hxhash.trans hr)
    | some h =>
      cases hf : (db.take i).find? (fun s => s.file_hash == some h) with
      | none => exact exactMark_some_none _ x h (hxhash.trans hr) hf
      | some first =>
        have hee : e = { r with is_duplicate := true, duplicate_of := some first.id } :=
          exactMark_some_some (db.take i) r h first hr hf
        have hxe : x = e := by
          rw [hx, hee]
          exact nearLoopRec_of_dup ps _ rfl
        rw [exactMark_some_some (db.take i) x h first (hxhash.trans hr) hf, hxe, hee]

/-- C6 helper: a second full resolver run changes nothing. -/
theorem find_duplicates_idem (db : List FileRec) :
    find_duplicates (find_duplicates db) = find_duplicates db := by
  conv_lhs => rw [find_duplicates]
  rw [exactPhase_find_duplicates db, nearLoop_map]
  have hmain : ∀ x ∈ find_duplicates db,
      nearLoopRec (phashSnapshot (find_duplicates db)) x = x := by
    intro x hxmem
    apply nearLoopRec_eq_self
    intro pa pb hsub hle hid
    have hsub₁ : [pa, pb].Sublist (phashSnapshot (exactPhase db)) := by
      apply hsub.trans
      rw [find_duplicates_eq_map]
      exact phashSnapshot_map_sublist _
        (nearLoopRec_eq_or_dup (phashSnapshot (exactPhase db))) (exactPhase db)
    rw [find_duplicates_eq_map] at hxmem
    obtain ⟨y, _, rfl⟩ := List.mem_map.mp hxmem
    apply nearLoopRec_dup_of_pair pa pb _ hle
    · exact hsub₁
    · exact ((nearLoopRec_core (phashSnapshot (exactPhase db)) y).1).symm.trans hid
  rw [List.map_congr_left hmain, List.map_id']

/-! #### Helpers for the link-validity and staleness claims -/

theorem exactMark_dup (seen : List FileRec) (r : FileRec) (h : r.is_duplicate = true) :
    (exactMark seen r).is_duplicate = true := by
  cases hr : r.file_hash with
  | none => rw [exactMark_none seen r hr]; exact h
  | some hh =>
    cases hf : seen.find? (fun s => s.file_hash == some hh) with
    | none => rw [exactMark_some_none seen r hh hr hf]; exact h
    | some first => rw [exactMark_some_some seen r hh first hr hf]

theorem exactPhase_map_id (db : List FileRec) :
    (exactPhase db).map FileRec.id = db.map FileRec.id := by
  have haux : ∀ (seen l : List FileRec),
      (exactPhaseAux seen l).map FileRec.id = l.map FileRec.id := by
    intro seen l
    induction l generalizing seen with
    | nil => rfl
    | cons x t ih =>
      have hstep : exactPhaseAux seen (x :: t) =
          exactMark seen x :: exactPhaseAux (seen ++ [x]) t := rfl
      rw [hstep, List.map_cons, List.map_cons, (exactMark_core seen x).1, ih (seen ++ [x])]
  exact haux [] db

theorem phashSnapshot_fst_mem (l : List FileRec) (p : Nat × Nat)
    (hp : p ∈ phashSnapshot l) : p.1 ∈ l.map FileRec.id := by
  unfold phashSnapshot at hp
  obtain ⟨r, hr, hpr⟩ := List.mem_map.mp hp
  have hrl : r ∈ l := (List.mem_filter.mp hr).1
  rw [← hpr]
  exact List.mem_map_of_mem FileRec.id hrl

theorem phashSnapshot_fst_nodup (l : List FileRec) (h : (l.map FileRec.id).Nodup) :
    ((phashSnapshot l).map Prod.fst).Nodup := by
  have heq : (phashSnapshot l).map Prod.fst =
      (l.filter fun r =>
        r.perceptual_hash.isSome && !r.is_duplicate && r.file_type == "image").map
        FileRec.id := by
    unfold phashSnapshot
    rw [List.map_map]
    rfl
  rw [heq]
  exact List.Nodup.sublist (List.Sublist.map FileRec.id (List.filter_sublist l)) h

/-- With distinct ids, a row strictly before position `i` has a different id
from the row at position `i`. -/
theorem take_mem_id_ne (db : List FileRec) :
    ∀ (i : Nat) (r x : FileRec), (db.map FileRec.id).Nodup → db[i]? = some r →
      x ∈ db.take i → x.id ≠ r.id := by
  induction db with
  | nil => intro i r x _ hget _; simp at hget
  | cons y t ih =>
    intro i r x hnodup hget hx
    rw [List.map_cons, List.nodup_cons] at hnodup
    obtain ⟨hyid, hnodup'⟩ := hnodup
    cases i with
    | zero => simp at hx
    | succ j =>
      rw [List.getElem?_cons_succ] at hget
      rw [List.take_succ_cons] at hx
      rcases List.mem_cons.mp hx with rfl | hx'
      · intro he
        exact hyid (he ▸ List.mem_map_of_mem FileRec.id (List.getElem?_mem hget))
      · exact ih j r x hnodup' hget hx'

/-- Bridge between "the head of the digest group" (the spec's first group
member, in insertion order) and the prefix search the embedded exact phase
performs. -/
theorem filter_head_take (p : FileRec → Bool) :
    ∀ (l : List FileRec) (i : Nat) (r : FileRec), (l.map FileRec.id).Nodup →
      l[i]? = some r → p r = true →
      (((l.filter p).head? = some r → (l.take i).find? p = none) ∧
       (∀ r0 : FileRec, (l.filter p).head? = some r0 → r0.id ≠ r.id →
         (l.take i).find? p = some r0)) := by
  intro l
  induction l with
  | nil => intro i r _ hget _; simp at hget
  | cons x t ih =>
    intro i r hnodup hget hp
    rw [List.map_cons, List.nodup_cons] at hnodup
    obtain ⟨hxid, hnodup'⟩ := hnodup
    cases i with
    | zero =>
      rw [List.getElem?_cons_zero] at hget
      have hxr : x = r := by simpa using hget
      constructor
      · intro _
        rfl
      · intro r0 hh0 hne
        exfalso
        have hpx : p x = true := by rw [hxr]; exact hp
        rw [List.filter_cons, if_pos hpx] at hh0
        have hx0 : x = r0 := by simpa using hh0
        exact hne (by rw [← hx0, hxr])
    | succ j =>
      rw [List.getElem?_cons_succ] at hget
      by_cases hpx : p x = true
      · have hrmem : r ∈ t := List.getElem?_mem hget
        have hxr : x.id ≠ r.id := fun he =>
          hxid (he ▸ List.mem_map_of_mem FileRec.id hrmem)
        constructor
        · intro hh
          rw [List.filter_cons, if_pos hpx] at hh
          have : x = r := by simpa using hh
          exact absurd (by rw [this]) hxr
        · intro r0 hh0 hne
          rw [List.filter_cons, if_pos hpx] at hh0
          have hx0 : x = r0 := by simpa using hh0
          rw [List.take_succ_cons, List.find?_cons_of_pos _ hpx, hx0]
      · have hih := ih j r hnodup' hget hp
        rw [List.filter_cons, if_neg hpx, List.take_succ_cons]
        constructor
        · intro hh
          rw [List.find?_cons_of_neg _ hpx]
          exact hih.1 hh
        · intro r0 hh0 hne
          rw [List.find?_cons_of_neg _ hpx]
          exact hih.2 r0 hh0 hne

/-- Links created by the pairwise pass on a clean record set point at the
id of another record of the set. -/
theorem near_phase_links (db : List FileRec)
    (hclean : ∀ r ∈ db, r.is_duplicate = false)
    (hnodup : (db.map FileRec.id).Nodup)
    (r r' : FileRec) (hmem : r ∈ db)
    (hr' : r' = nearLoopRec (phashSnapshot (exactPhase db)) r)
    (hdup' : r'.is_duplicate = true) :
    ∃ j : Nat, r'.duplicate_of = some j ∧ j ∈ db.map FileRec.id ∧ j ≠ r'.id := by
  rcases nearLoopRec_eq_or_marked (phashSnapshot (exactPhase db)) r with
    hfix | ⟨_, pa, pb, hsub, g1, _, g3⟩
  · exfalso
    have hrd : r.is_duplicate = true := by
      rw [hr', hfix] at hdup'
      exact hdup'
    rw [hclean r hmem] at hrd
    exact Bool.false_ne_true hrd
  · have hrr : r' = { r with is_duplicate := true, duplicate_of := some pa.1 } := by
      rw [hr', g3]
    refine ⟨pa.1, by rw [hrr], ?_, ?_⟩
    · have hpa : pa ∈ phashSnapshot (exactPhase db) :=
        (List.Sublist.subset hsub) (List.mem_cons_self _ _)
      have hin := phashSnapshot_fst_mem (exactPhase db) pa hpa
      rw [exactPhase_map_id] at hin
      exact hin
    · have hnods : ((phashSnapshot (exactPhase db)).map Prod.fst).Nodup :=
        phashSnapshot_fst_nodup _ (by rw [exactPhase_map_id]; exact hnodup)
      have hsubf : ([pa.1, pb.1]).Sublist ((phashSnapshot (exactPhase db)).map Prod.fst) := by
        have hm := List.Sublist.map Prod.fst hsub
        simpa using hm
      have hpair : pa.1 ≠ pb.1 := by
        have h2 := List.Nodup.sublist hsubf hnods
        rw [List.nodup_cons] at h2
        intro he
        exact h2.1 (by rw [he]; exact List.mem_cons_self _ _)
      rw [hrr]
      show pa.1 ≠ r.id
      rw [← g1]
      exact hpair

/-! ### Claims about the Duplicate Resolver -/

/-- Three clean image rows (no digests) whose perceptual hashes 0, 255 and
65535 sit at pairwise Hamming distances 8, 8 and 16: the greedy pass links
2 → 1 and then 3 → 2, although 2 is itself a duplicate. -/
def c1db : List FileRec :=
  [{ id := 1, file_type := "image", file_hash := none, perceptual_hash := some 0,
     is_duplicate := false, duplicate_of := none },
   { id := 2, file_type := "image", file_hash := none, perceptual_hash := some 255,
     is_duplicate := false, duplicate_of := none },
   { id := 3, file_type := "image", file_hash := none, perceptual_hash := some 65535,
     is_duplicate := false, duplicate_of := none }]

/-- C1 (counterexample): on a clean three-image record set the resolver
produces a record (id 3) marked duplicate whose `duplicate_of` target
(id 2) is itself marked duplicate — a duplicate chain, refuting the claim
that after any run every referenced record has `is_duplicate = false`. -/
theorem claim_C1_counterexample :
    (∀ r ∈ c1db, r.is_duplicate = false) ∧
    ¬ (∀ r ∈ find_duplicates c1db, r.is_duplicate = true →
        ∃ o ∈ find_duplicates c1db, r.duplicate_of = some o.id ∧
          o.is_duplicate = false) := by decide

/-- C1 (amended): after a resolver run on a clean record set with distinct
ids, every record marked duplicate carries a non-null `duplicate_of`
reference to the id of another record of the set (never to itself); the
referenced record, however, may itself be marked duplicate. -/
theorem claim_C1_duplicate_links (db : List FileRec)
    (hclean : ∀ r ∈ db, r.is_duplicate = false)
    (hnodup : (db.map FileRec.id).Nodup) :
    ∀ (i : Nat) (r' : FileRec), (find_duplicates db)[i]? = some r' →
      r'.is_duplicate = true →
      ∃ j : Nat, r'.duplicate_of = some j ∧ j ∈ db.map FileRec.id ∧ j ≠ r'.id := by
  intro i r' hget' hdup'
  rw [find_duplicates_getElem] at hget'
  cases hget : db[i]? with
  | none =>
    rw [hget] at hget'
    exact absurd hget' (by simp)
  | some r =>
    rw [hget, Option.map_some'] at hget'
    have hr' : r' = nearLoopRec (phashSnapshot (exactPhase db)) (exactMark (db.take i) r) :=
      (Option.some.injEq _ _ |>.mp hget').symm
    cases hhash : r.file_hash with
    | some h =>
      cases hf : (db.take i).find? (fun s => s.file_hash == some h) with
      | some first =>
        have he : exactMark (db.take i) r =
            { r with is_duplicate := true, duplicate_of := some first.id } :=
          exactMark_some_some _ r h first hhash hf
        have hrr : r' = { r with is_duplicate := true, duplicate_of := some first.id } := by
          rw [hr', he, nearLoopRec_of_dup _ _ rfl]
        refine ⟨first.id, by rw [hrr], ?_, ?_⟩
        · exact List.mem_map_of_mem FileRec.id
            (List.take_subset i db (List.mem_of_find?_eq_some hf))
        · have hne := take_mem_id_ne db i r first hnodup hget (List.mem_of_find?_eq_some hf)
          rw [hrr]
          exact hne
      | none =>
        have he : exactMark (db.take i) r = r := exactMark_some_none _ r h hhash hf
        rw [he] at hr'
        exact near_phase_links db hclean hnodup r r' (List.getElem?_mem hget) hr' hdup'
    | none =>
      have he : exactMark (db.take i) r = r := exactMark_none _ r hhash
      rw [he] at hr'
      exact near_phase_links db hclean hnodup r r' (List.getElem?_mem hget) hr' hdup'

/-- C1 (amended, witness): the amended link-validity theorem applied to the
chain-producing record set, at the record with id 2. -/
theorem claim_C1_duplicate_links_witness :
    ∃ j : Nat,
      (({ id := 2, file_type := "image", file_hash := none, perceptual_hash := some 255,
          is_duplicate := true, duplicate_of := some 1 } : FileRec).duplicate_of = some j) ∧
      j ∈ c1db.map FileRec.id ∧
      j ≠ ({ id := 2, file_type := "image", file_hash := none,
             perceptual_hash := some 255,
             is_duplicate := true, duplicate_of := some 1 } : FileRec).id :=
  claim_C1_duplicate_links c1db (by decide) (by decide) 1
    { id := 2, file_type := "image", file_hash := none, perceptual_hash := some 255,
      is_duplicate := true, duplicate_of := some 1 } (by decide) (by decide)

/-- C2: within each digest group of size > 1 the first record in insertion
order is left untouched by the exact phase (its `is_duplicate` flag in
particular stays whatever it was, i.e. false on a clean set), every later
group member is marked duplicate referencing the group head's id, and a
record whose digest is shared with no other record (a singleton group) is
also left untouched; records with NULL digests are ignored. -/
theorem claim_C2_exact_grouping (db : List FileRec) (hnodup : (db.map FileRec.id).Nodup)
    (i : Nat) (r : FileRec) (hget : db[i]? = some r) :
    ((exactPhase db).length = db.length) ∧
    (r.file_hash = none → (exactPhase db)[i]? = some r) ∧
    (∀ h : String, r.file_hash = some h →
      ((hashGroup db h).head? = some r → (exactPhase db)[i]? = some r) ∧
      (∀ r0 : FileRec, (hashGroup db h).head? = some r0 → r0.id ≠ r.id →
        (exactPhase db)[i]? =
          some { r with is_duplicate := true, duplicate_of := some r0.id })) := by
  refine ⟨exactPhase_length db, ?_, ?_⟩
  · intro hr
    rw [exactPhase_getElem, hget, Option.map_some', exactMark_none _ r hr]
  · intro h hr
    have hbr := filter_head_take (fun s => s.file_hash == some h) db i r hnodup hget
      (by simp [hr])
    constructor
    · intro hh
      rw [exactPhase_getElem, hget, Option.map_some',
        exactMark_some_none _ r h hr (hbr.1 hh)]
    · intro r0 hh0 hne
      rw [exactPhase_getElem, hget, Option.map_some',
        exactMark_some_some _ r h r0 hr (hbr.2 r0 hh0 hne)]

/-- Records A, B with the same digest and C, D with other digests (C's
distinct, D's NULL). -/
def c2db : List FileRec :=
  [{ id := 1, file_type := "image", file_hash := some "x", perceptual_hash := none,
     is_duplicate := false, duplicate_of := none },
   { id := 2, file_type := "image", file_hash := some "x", perceptual_hash := none,
     is_duplicate := false, duplicate_of := none },
   { id := 3, file_type := "image", file_hash := some "y", perceptual_hash := none,
     is_duplicate := false, duplicate_of := none }]

/-- C2 (witness): on `c2db` the exact phase marks the second member of the
"x" group as a duplicate of the first. -/
theorem claim_C2_exact_grouping_witness :
    (exactPhase c2db)[1]? =
      some { id := 2, file_type := "image", file_hash := some "x",
             perceptual_hash := none, is_duplicate := true, duplicate_of := some 1 } :=
  ((claim_C2_exact_grouping c2db (by decide) 1
      { id := 2, file_type := "image", file_hash := some "x", perceptual_hash := none,
        is_duplicate := false, duplicate_of := none } (by decide)).2.2 "x" rfl).2
    { id := 1, file_type := "image", file_hash := some "x", perceptual_hash := none,
      is_duplicate := false, duplicate_of := none } (by decide) (by decide)

/-- Two rows with distinct digests; row 2 carries a stale duplicate mark
from an earlier resolver run (its digest has since changed). -/
def c3db : List FileRec :=
  [{ id := 1, file_type := "image", file_hash := some "h1", perceptual_hash := none,
     is_duplicate := false, duplicate_of := none },
   { id := 2, file_type := "image", file_hash := some "h2", perceptual_hash := none,
     is_duplicate := true, duplicate_of := some 1 }]

/-- C3 (counterexample): row 2's digest "h2" is shared with no other row and
it has no perceptual hash, yet after `find_duplicates` it still carries
`is_duplicate = 1` and the stale `duplicate_of = 1` link — the resolver never
resets the flags, refuting the recomputed-from-scratch claim. -/
theorem claim_C3_counterexample :
    (hashGroup c3db "h2").length = 1 ∧
    (∀ r ∈ c3db, r.file_hash = some "h2" → r.perceptual_hash = none) ∧
    (find_duplicates c3db)[1]? =
      some { id := 2, file_type := "image", file_hash := some "h2",
             perceptual_hash := none, is_duplicate := true,
             duplicate_of := some 1 } := by decide

/-- C3 (amended): the resolver only ever adds duplicate marks.  A record that
enters the run already marked stays marked, and if no earlier record shares
its digest (in particular if its digest matches no group, or is NULL) the
record — including its stale `duplicate_of` link — is returned entirely
unchanged. -/
theorem claim_C3_stale_links_persist (db : List FileRec) (i : Nat) (r : FileRec)
    (hget : db[i]? = some r) (hdup : r.is_duplicate = true) :
    (((find_duplicates db)[i]?).map FileRec.is_duplicate = some true) ∧
    (∀ h : String, r.file_hash = some h →
      (db.take i).find? (fun s => s.file_hash == some h) = none →
      (find_duplicates db)[i]? = some r) ∧
    (r.file_hash = none → (find_duplicates db)[i]? = some r) := by
  refine ⟨?_, ?_, ?_⟩
  · rw [find_duplicates_getElem, hget, Option.map_some', Option.map_some']
    have h1 : (exactMark (db.take i) r).is_duplicate = true := exactMark_dup _ r hdup
    rw [nearLoopRec_of_dup _ _ h1, h1]
  · intro h hh hf
    rw [find_duplicates_getElem, hget, Option.map_some',
      exactMark_some_none _ r h hh hf, nearLoopRec_of_dup _ _ hdup]
  · intro hh
    rw [find_duplicates_getElem, hget, Option.map_some',
      exactMark_none _ r hh, nearLoopRec_of_dup _ _ hdup]

/-- C3 (amended, witness): the staleness theorem applied to `c3db`. -/
theorem claim_C3_stale_links_persist_witness :
    (find_duplicates c3db)[1]? =
      some { id := 2, file_type := "image", file_hash := some "h2",
             perceptual_hash := none, is_duplicate := true,
             duplicate_of := some 1 } :=
  ((claim_C3_stale_links_persist c3db 1
      { id := 2, file_type := "image", file_hash := some "h2", perceptual_hash := none,
        is_duplicate := true, duplicate_of := some 1 }
      (by decide) (by decide)).2.1 "h2" rfl (by decide))

/-- C6: running `find_duplicates` twice in a row over an unchanged record
set produces exactly the same duplicate flags and `duplicate_of` links as
running it once — the resolver is idempotent (for every starting record
set, clean or not). -/
theorem claim_C6_resolver_idempotent (db : List FileRec) :
    find_duplicates (find_duplicates db) = find_duplicates db :=
  find_duplicates_idem db

/-! ### Video frame sampling (scanner.py, `extract_video_frames`)

The external ffmpeg invocation for each frame is modelled by an oracle
outcome.  `subprocess.run` without `check=True` does not raise on a non-zero
exit, so a failed invocation surfaces as an empty output file (`empty`);
`raised` covers `TimeoutExpired`, `SubprocessError` and `OSError` — note the
dedicated `FileNotFoundError` handler at line 208 is unreachable because
`FileNotFoundError ⊂ OSError` is already caught at line 199.  Temp files are
identified by their creation index; `disk` is the set of temp files existing
when the call returns; `attempted` counts ffmpeg invocations made. -/

inductive FFOutcome where
  | ok
  | empty
  | raised
deriving DecidableEq, Repr

structure ExtractState where
  frames : List Nat
  created_temps : List Nat
  disk : List Nat
  attempted : Nat
deriving DecidableEq, Repr

def initExtractState : ExtractState :=
  { frames := [], created_temps := [], disk := [], attempted := 0 }

/-- Exception handler (scanner.py lines 201-207): unlink every tracked temp
file that was not added to `frames`. -/
def cleanupTemps (st : ExtractState) : ExtractState :=
  { st with
    disk :=
      st.disk.filter (fun t => !(decide (t ∈ st.created_temps) && decide (t ∉ st.frames))) }

/-- The frame loop (scanner.py lines 184-198): create a temp file, invoke
ffmpeg; keep the file as a frame if non-empty, else unlink it and drop it
from the tracking list (`List.erase` = Python `list.remove`, first
occurrence; temp names are unique).  A raising invocation jumps to the
handler, which cleans up and falls through to `return frames`. -/
def extractLoop : Nat → List FFOutcome → ExtractState → ExtractState
  | _, [], st => st
  | idx, o :: rest, st =>
    let st1 : ExtractState :=
      { st with created_temps := st.created_temps ++ [idx], disk := st.disk ++ [idx],
                attempted := st.attempted + 1 }
    match o with
    | .ok => extractLoop (idx + 1) rest { st1 with frames := st1.frames ++ [idx] }
    | .empty => extractLoop (idx + 1) rest
        { st1 with disk := st1.disk.erase idx,
                   created_temps := st1.created_temps.erase idx }
    | .raised => cleanupTemps st1

/-- `extract_video_frames` (scanner.py lines 168-210).  A raising duration
probe (line 174) is caught by the same handler with nothing yet tracked, so
it returns no frames; the probed duration value itself only shifts the
seek timestamps and is irrelevant to the returned/remaining files. -/
def extract_video_frames (probeRaises : Bool) (outcomes : List FFOutcome) : ExtractState :=
  if probeRaises then cleanupTemps initExtractState
  else extractLoop 0 outcomes initExtractState

theorem extractLoop_disk_eq_frames :
    ∀ (outcomes : List FFOutcome) (idx : Nat) (st : ExtractState),
      st.disk = st.frames → st.created_temps = st.frames →
      (∀ t ∈ st.frames, t < idx) →
      (extractLoop idx outcomes st).disk = (extractLoop idx outcomes st).frames := by
  intro outcomes
  induction outcomes with
  | nil => intro idx st h1 _ _; exact h1
  | cons o rest ih =>
    intro idx st h1 h2 hb
    have hnotmem : idx ∉ st.frames := fun hm => absurd (hb idx hm) (lt_irrefl idx)
    cases o with
    | ok =>
      have hstep : extractLoop idx (FFOutcome.ok :: rest) st = extractLoop (idx + 1) rest
          { st with frames := st.frames ++ [idx], created_temps := st.created_temps ++ [idx],
                    disk := st.disk ++ [idx], attempted := st.attempted + 1 } := rfl
      rw [hstep]
      apply ih
      · show st.disk ++ [idx] = st.frames ++ [idx]
        rw [h1]
      · show st.created_temps ++ [idx] = st.frames ++ [idx]
        rw [h2]
      · intro t ht
        rcases List.mem_append.mp ht with h | h
        · exact Nat.lt_succ_of_lt (hb t h)
        · simp at h
          omega
    | empty =>
      have hstep : extractLoop idx (FFOutcome.empty :: rest) st = extractLoop (idx + 1) rest
          { st with frames := st.frames,
                    created_temps := (st.created_temps ++ [idx]).erase idx,
                    disk := (st.disk ++ [idx]).erase idx,
                    attempted := st.attempted + 1 } := rfl
      rw [hstep]
      have he1 : (st.disk ++ [idx]).erase idx = st.frames := by
        rw [h1, List.erase_append_right _ hnotmem]
        simp
      have he2 : (st.created_temps ++ [idx]).erase idx = st.frames := by
        rw [h2, List.erase_append_right _ hnotmem]
        simp
      apply ih
      · exact he1
      · exact he2
      · intro t ht
        exact Nat.lt_succ_of_lt (hb t ht)
    | raised =>
      have hstep : extractLoop idx (FFOutcome.raised :: rest) st = cleanupTemps
          { st with created_temps := st.created_temps ++ [idx],
                    disk := st.disk ++ [idx], attempted := st.attempted + 1 } := rfl
      rw [hstep]
      show ((st.disk ++ [idx]).filter
          (fun t => !(decide (t ∈ st.created_temps ++ [idx]) && decide (t ∉ st.frames)))) =
        st.frames
      rw [h1, h2, List.filter_append]
      have hkeep : st.frames.filter
          (fun t => !(decide (t ∈ st.frames ++ [idx]) && decide (t ∉ st.frames))) =
          st.frames := by
        apply List.filter_eq_self.mpr
        intro t ht
        simp [ht]
      have hdrop : [idx].filter
          (fun t => !(decide (t ∈ st.frames ++ [idx]) && decide (t ∉ st.frames))) =
          [] := by
        simp [hnotmem]
      rw [hkeep, hdrop, List.append_nil]

theorem extractLoop_attempted_no_raise :
    ∀ (outcomes : List FFOutcome) (idx : Nat) (st : ExtractState),
      FFOutcome.raised ∉ outcomes →
      (extractLoop idx outcomes st).attempted = st.attempted + outcomes.length := by
  intro outcomes
  induction outcomes with
  | nil => intro idx st _; rfl
  | cons o rest ih =>
    intro idx st hmem
    have hrest : FFOutcome.raised ∉ rest := fun h => hmem (List.mem_cons_of_mem _ h)
    cases o with
    | ok =>
      have hstep : extractLoop idx (FFOutcome.ok :: rest) st = extractLoop (idx + 1) rest
          { st with frames := st.frames ++ [idx], created_temps := st.created_temps ++ [idx],
                    disk := st.disk ++ [idx], attempted := st.attempted + 1 } := rfl
      rw [hstep, ih (idx + 1) _ hrest]
      simp
      omega
    | empty =>
      have hstep : extractLoop idx (FFOutcome.empty :: rest) st = extractLoop (idx + 1) rest
          { st with frames := st.frames,
                    created_temps := (st.created_temps ++ [idx]).erase idx,
                    disk := (st.disk ++ [idx]).erase idx,
                    attempted := st.attempted + 1 } := rfl
      rw [hstep, ih (idx + 1) _ hrest]
      simp
      omega
    | raised => exact absurd (List.mem_cons_self _ _) hmem

theorem extractLoop_attempted_raise :
    ∀ (pre post : List FFOutcome) (idx : Nat) (st : ExtractState),
      FFOutcome.raised ∉ pre →
      (extractLoop idx (pre ++ FFOutcome.raised :: post) st).attempted =
        st.attempted + pre.length + 1 := by
  intro pre
  induction pre with
  | nil =>
    intro post idx st _
    rfl
  | cons o rest ih =>
    intro post idx st hmem
    have hrest : FFOutcome.raised ∉ rest := fun h => hmem (List.mem_cons_of_mem _ h)
    cases o with
    | ok =>
      have hstep : extractLoop idx ((FFOutcome.ok :: rest) ++ FFOutcome.raised :: post) st =
          extractLoop (idx + 1) (rest ++ FFOutcome.raised :: post)
          { st with frames := st.frames ++ [idx], created_temps := st.created_temps ++ [idx],
                    disk := st.disk ++ [idx], attempted := st.attempted + 1 } := rfl
      rw [hstep, ih post (idx + 1) _ hrest]
      simp
      omega
    | empty =>
      have hstep : extractLoop idx ((FFOutcome.empty :: rest) ++ FFOutcome.raised :: post) st =
          extractLoop (idx + 1) (rest ++ FFOutcome.raised :: post)
          { st with frames := st.frames,
                    created_temps := (st.created_temps ++ [idx]).erase idx,
                    disk := (st.disk ++ [idx]).erase idx,
                    attempted := st.attempted + 1 } := rfl
      rw [hstep, ih post (idx + 1) _ hrest]
      simp
      omega
    | raised => exact absurd (List.mem_cons_self _ _) hmem

/-- C4: on every call — for every per-invocation outcome pattern, including
tool failures and timeouts — the temp files still on disk when
`extract_video_frames` returns are exactly the returned frame paths: no
created temporary file that is not returned survives.  In particular a
2-frame request whose second invocation raises after a successful first
frame returns exactly one frame path and leaves zero stray temp files. -/
theorem claim_C4_temp_cleanup :
    (∀ (probeRaises : Bool) (outcomes : List FFOutcome),
      (extract_video_frames probeRaises outcomes).disk =
        (extract_video_frames probeRaises outcomes).frames) ∧
    ((extract_video_frames false [FFOutcome.ok, FFOutcome.raised]).frames = [0] ∧
     (extract_video_frames false [FFOutcome.ok, FFOutcome.raised]).disk = [0]) := by
  refine ⟨?_, by decide, by decide⟩
  intro probeRaises outcomes
  cases probeRaises with
  | true => rfl
  | false =>
    apply extractLoop_disk_eq_frames outcomes 0 initExtractState rfl rfl
    intro t ht
    simp [initExtractState] at ht

/-- C5 (counterexample): a raising ffmpeg invocation (e.g. a timeout) for
frame 1 of a 3-frame request aborts extraction — only 2 of the 3 frames are
attempted, refuting the claim that a single frame's failure or timeout never
prevents the remaining frames from being attempted. -/
theorem claim_C5_counterexample :
    (extract_video_frames false [FFOutcome.ok, FFOutcome.raised, FFOutcome.ok]).attempted = 2 ∧
    ¬ (∀ outcomes : List FFOutcome,
        (extract_video_frames false outcomes).attempted = outcomes.length) := by
  constructor
  · decide
  · intro h
    exact absurd (h [FFOutcome.ok, FFOutcome.raised, FFOutcome.ok]) (by decide)

/-- C5 (amended): each frame gets its own ffmpeg invocation, and a frame
whose invocation completes but fails (non-zero exit / empty output) does not
abort the remaining frames — when no invocation raises, all `n` requested
frames are attempted.  But the `try` block wraps the whole loop, so an
invocation that raises (timeout or subprocess error) aborts the loop: with
the first raise at position `i` (0-based), exactly `i + 1` invocations are
attempted and the remaining frames are skipped (after temp cleanup). -/
theorem claim_C5_failure_abort (outcomes : List FFOutcome) :
    (FFOutcome.raised ∉ outcomes →
      (extract_video_frames false outcomes).attempted = outcomes.length) ∧
    (∀ pre post : List FFOutcome, outcomes = pre ++ FFOutcome.raised :: post →
      FFOutcome.raised ∉ pre →
      (extract_video_frames false outcomes).attempted = pre.length + 1) := by
  constructor
  · intro hmem
    show (extractLoop 0 outcomes initExtractState).attempted = outcomes.length
    rw [extractLoop_attempted_no_raise outcomes 0 initExtractState hmem]
    simp [initExtractState]
  · intro pre post hsplit hmem
    show (extractLoop 0 outcomes initExtractState).attempted = pre.length + 1
    rw [hsplit, extractLoop_attempted_raise pre post 0 initExtractState hmem]
    simp [initExtractState]

/-- C5 (amended, witness): an empty-output failure on frame 1 of 2 still
attempts both frames; a raising invocation at position 1 of 3 stops after
two attempts. -/
theorem claim_C5_failure_abort_witness :
    (FFOutcome.raised ∉ ([FFOutcome.empty, FFOutcome.ok] : List FFOutcome) ∧
      (extract_video_frames false [FFOutcome.empty, FFOutcome.ok]).attempted =
        ([FFOutcome.empty, FFOutcome.ok] : List FFOutcome).length) ∧
    (extract_video_frames false
        [FFOutcome.ok, FFOutcome.raised, FFOutcome.ok]).attempted =
      ([FFOutcome.ok] : List FFOutcome).length + 1 :=
  ⟨⟨by decide, (claim_C5_failure_abort [FFOutcome.empty, FFOutcome.ok]).1 (by decide)⟩,
   (claim_C5_failure_abort [FFOutcome.ok, FFOutcome.raised, FFOutcome.ok]).2
     [FFOutcome.ok] [FFOutcome.ok] rfl (by decide)⟩

/-! ### Path and string helpers (os.path / str methods used by scanner.py)

Implemented over `List Char` so that every function evaluates inside the
kernel; `String` is only a wrapper around its character list. -/

/-- `str.lower()` (ASCII, which is all the code's patterns use). -/
def strToLower (s : String) : String := String.mk (s.toList.map Char.toLower)

/-- `os.path.basename`: everything after the last "/". -/
def basename (p : String) : String :=
  String.mk ((p.toList.reverse.takeWhile (fun c => c != '/')).reverse)

/-- `os.path.splitext(p)[1]`: the suffix of the basename starting at its
last dot — unless every character of the basename before that dot is itself
a dot, in which case there is no extension (CPython `genericpath._splitext`;
dots before the final path separator never count). -/
def splitextExt (p : String) : String :=
  let cs := (basename p).toList
  let rev := cs.reverse
  if '.' ∈ rev then
    let after := rev.takeWhile (fun c => c != '.')
    let before := cs.take (cs.length - after.length - 1)
    if before.all (fun c => c == '.') then ""
    else String.mk ('.' :: after.reverse)
  else ""

/-- Occurrence test behind Python's `pat in s`: some offset of `cs` starts
with `pat`. -/
def charsContains (cs pat : List Char) : Bool :=
  (List.range (cs.length + 1)).any (fun i => (cs.drop i).take pat.length == pat)

/-- Python's substring test `pat in s`. -/
def strContains (s pat : String) : Bool := charsContains s.toList pat.toList

/-- `fname.startswith(".")`. -/
def startsWithDot (s : String) : Bool :=
  match s.toList with
  | [] => false
  | c :: _ => c == '.'

theorem charsContains_occurrence (cs pat : List Char) :
    charsContains cs pat = true ↔ pat <:+: cs := by
  unfold charsContains
  rw [List.any_eq_true]
  constructor
  · rintro ⟨i, _, hi⟩
    rw [beq_iff_eq] at hi
    refine ⟨cs.take i, (cs.drop i).drop pat.length, ?_⟩
    have h2 : pat ++ (cs.drop i).drop pat.length = cs.drop i := by
      have h3 := List.take_append_drop pat.length (cs.drop i)
      rw [hi] at h3
      exact h3
    rw [List.append_assoc, h2, List.take_append_drop]
  · rintro ⟨s, t, hst⟩
    refine ⟨s.length, ?_, ?_⟩
    · rw [List.mem_range, ← hst]
      simp only [List.length_append]
      omega
    · rw [← hst, List.append_assoc, List.drop_left, List.take_left]
      simp

/-! ### Junk classifier (scanner.py, `detect_junk`; thresholds from config.py) -/

def JUNK_SIZE_THRESHOLD : Nat := 10000

def IMAGE_EXTENSIONS : List String :=
  [".jpg", ".jpeg", ".png", ".gif", ".bmp", ".tiff", ".tif",
   ".webp", ".heic", ".heif", ".raw", ".cr2", ".nef", ".arw", ".svg", ".ico"]

def VIDEO_EXTENSIONS : List String :=
  [".mp4", ".mov", ".avi", ".mkv", ".wmv", ".flv", ".webm",
   ".m4v", ".mpg", ".mpeg", ".3gp"]

def junk_patterns : List String :=
  ["thumb", "thumbnail", ".ds_store", "desktop.ini", "thumbs.db"]

/-- `detect_junk` (scanner.py lines 213-238).  `imageValid` is the oracle for
the PIL `Image.open(filepath).verify()` structural check performed for image
extensions: `true` when it succeeds, `false` when it raises. -/
def detect_junk (filepath : String) (file_size : Nat) (imageValid : Bool) :
    Bool × String :=
  let fname := strToLower (basename filepath)
  let reasons : List String := []
  let reasons := if file_size < JUNK_SIZE_THRESHOLD
    then reasons ++ [s!"very small ({file_size} bytes)"] else reasons
  let reasons := if junk_patterns.any (fun p => strContains fname p)
    then reasons ++ ["thumbnail/system file pattern"] else reasons
  let ext := strToLower (splitextExt filepath)
  let reasons := if IMAGE_EXTENSIONS.contains ext && !imageValid
    then reasons ++ ["corrupted or unreadable image"] else reasons
  if reasons.isEmpty then (false, "")
  else (true, String.intercalate "; " reasons)

/-- The spec's first junk condition: size below the configured threshold. -/
def sizeApplies (file_size : Nat) : Prop := file_size < JUNK_SIZE_THRESHOLD

/-- The spec's second junk condition: the (case-insensitively lowered)
filename contains one of the system/thumbnail markers as a substring. -/
def patternApplies (filepath : String) : Prop :=
  ∃ p ∈ junk_patterns, p.toList <:+: (strToLower (basename filepath)).toList

/-- The spec's third junk condition: image extension and failed structural
validation. -/
def corruptApplies (filepath : String) (imageValid : Bool) : Prop :=
  strToLower (splitextExt filepath) ∈ IMAGE_EXTENSIONS ∧ imageValid = false

instance decidableSizeApplies (file_size : Nat) : Decidable (sizeApplies file_size) :=
  inferInstanceAs (Decidable (file_size < JUNK_SIZE_THRESHOLD))

instance decidablePatternApplies (filepath : String) : Decidable (patternApplies filepath) :=
  inferInstanceAs
    (Decidable (∃ p ∈ junk_patterns, p.toList <:+: (strToLower (basename filepath)).toList))

instance decidableCorruptApplies (filepath : String) (imageValid : Bool) :
    Decidable (corruptApplies filepath imageValid) :=
  inferInstanceAs
    (Decidable (strToLower (splitextExt filepath) ∈ IMAGE_EXTENSIONS ∧ imageValid = false))

/-- The reasons the spec says apply, in the fixed order size, pattern,
corruption. -/
def junkReasonsSpec (filepath : String) (file_size : Nat) (imageValid : Bool) :
    List String :=
  (if sizeApplies file_size then [s!"very small ({file_size} bytes)"] else []) ++
  (if patternApplies filepath then ["thumbnail/system file pattern"] else []) ++
  (if corruptApplies filepath imageValid then ["corrupted or unreadable image"] else [])

/-- C7: `detect_junk` accumulates rather than short-circuits — its result is
`(false, "")` exactly when none of the three spec conditions applies, and
otherwise `(true, s)` where `s` is the semicolon-join of precisely the
applicable reasons in order; and the 500-byte `thumbnail_01.jpg` is flagged
with a reason containing both "very small" and "thumbnail". -/
theorem claim_C7_junk_reasons :
    (∀ (filepath : String) (file_size : Nat) (imageValid : Bool),
      detect_junk filepath file_size imageValid =
        (if junkReasonsSpec filepath file_size imageValid = [] then (false, "")
         else (true, String.intercalate "; "
                 (junkReasonsSpec filepath file_size imageValid)))) ∧
    ((detect_junk "thumbnail_01.jpg" 500 true).1 = true ∧
     strContains (detect_junk "thumbnail_01.jpg" 500 true).2 "very small" = true ∧
     strContains (detect_junk "thumbnail_01.jpg" 500 true).2 "thumbnail" = true) := by
  constructor
  · intro fp sz v
    have hpat : ((junk_patterns.any fun p => strContains (strToLower (basename fp)) p) = true)
        ↔ patternApplies fp := by
      rw [List.any_eq_true]
      unfold patternApplies
      constructor
      · rintro ⟨p, hp, hc⟩
        exact ⟨p, hp, (charsContains_occurrence _ _).mp hc⟩
      · rintro ⟨p, hp, hc⟩
        exact ⟨p, hp, (charsContains_occurrence _ _).mpr hc⟩
    have hcor : ((IMAGE_EXTENSIONS.contains (strToLower (splitextExt fp)) && !v) = true)
        ↔ corruptApplies fp v := by
      unfold corruptApplies
      rw [Bool.and_eq_true]
      constructor
      · rintro ⟨hm, hv⟩
        exact ⟨by simpa using hm, by simpa using hv⟩
      · rintro ⟨hm, hv⟩
        exact ⟨by simpa using hm, by simp [hv]⟩
    unfold detect_junk junkReasonsSpec sizeApplies
    by_cases h1 : sz < JUNK_SIZE_THRESHOLD <;>
      by_cases h2 : ∃ p ∈ junk_patterns,
          p.data <:+: (strToLower (basename fp)).data <;>
        by_cases h3 : strToLower (splitextExt fp) ∈ IMAGE_EXTENSIONS ∧ v = false <;>
          simp [h1, h2, h3, hpat, hcor, patternApplies, corruptApplies,
            String.toList, String.intercalate]
  · refine ⟨by decide, by decide, by decide⟩

/-! ### Content fingerprinter (scanner.py, `compute_file_hash`)

The function streams the file through `hashlib.sha256()` in 8192-byte
chunks.  `hashlib` is modelled by its interface: an initial state, an
`update` consuming a byte chunk, and `hexdigest`; the defining property of
any streaming hash — update on a concatenation equals sequential updates —
is a hypothesis of the claim's theorem, discharged concretely in the
witness. -/

structure StreamHash (σ : Type) where
  init : σ
  update : σ → List Nat → σ
  hexdigest : σ → String

/-- The read/update loop (scanner.py lines 51-56): `f.read(chunkSize)`
returns the next `chunkSize` bytes of the remaining content (fewer at the
end, `b""` at EOF or when `chunkSize = 0`), and the loop breaks on an empty
chunk. -/
def hashLoop {σ : Type} (H : StreamHash σ) (chunkSize : Nat) (s : σ)
    (content : List Nat) : σ :=
  if content.take chunkSize = [] then s
  else hashLoop H chunkSize (H.update s (content.take chunkSize)) (content.drop chunkSize)
termination_by content.length
decreasing_by
  rename_i h
  rw [List.take_eq_nil_iff] at h
  push_neg at h
  have h1 : content ≠ [] := h.2
  have h2 : chunkSize ≠ 0 := h.1
  rw [List.length_drop]
  have := List.length_pos.mpr h1
  omega

/-- `compute_file_hash` (scanner.py lines 48-57) on an already-read byte
content, with the code's fixed 8192-byte chunk size. -/
def compute_file_hash {σ : Type} (H : StreamHash σ) (content : List Nat) : String :=
  H.hexdigest (hashLoop H 8192 H.init content)

/-- Opening/reading the file may fail: `none` models a file that raises
`IOError` on `open` or mid-stream; `some content` a successful read of the
full byte content. -/
def compute_file_hash_io {σ : Type} (H : StreamHash σ) (file : Option (List Nat)) :
    Except String String :=
  match file with
  | none => Except.error "IOError"
  | some content => Except.ok (compute_file_hash H content)

theorem hashLoop_eq_update {σ : Type} (H : StreamHash σ)
    (Hincr : ∀ (s : σ) (a b : List Nat), H.update s (a ++ b) = H.update (H.update s a) b)
    (Hnil : ∀ s : σ, H.update s [] = s) (c : Nat) (hc : 0 < c) :
    ∀ (n : Nat) (content : List Nat), content.length ≤ n →
      ∀ s : σ, hashLoop H c s content = H.update s content := by
  intro n
  induction n with
  | zero =>
    intro content hlen s
    have hnil : content = [] := List.length_eq_zero.mp (Nat.le_zero.mp hlen)
    subst hnil
    rw [hashLoop, if_pos (by simp), Hnil]
  | succ m ih =>
    intro content hlen s
    by_cases htake : content.take c = []
    · rw [List.take_eq_nil_iff] at htake
      have hnil : content = [] := by
        rcases htake with h0 | h0
        · omega
        · exact h0
      subst hnil
      rw [hashLoop, if_pos (by simp), Hnil]
    · rw [hashLoop, if_neg htake]
      have hlen2 : (content.drop c).length ≤ m := by
        rw [List.length_drop]
        have hne : content ≠ [] := by
          intro h0
          exact htake (by rw [h0]; simp)
        have := List.length_pos.mpr hne
        omega
      rw [ih (content.drop c) hlen2, ← Hincr, List.take_append_drop]

/-- C8: for every streaming hash satisfying the incremental-update laws,
`compute_file_hash` returns the digest of the file's full byte content: it
equals hashing the whole content in one update, is the same for every
positive chunk size (the fixed 8192 included), is deterministic (it is a
pure function of the content), and a file that cannot be opened or read
yields `IOError` instead of a digest. -/
theorem claim_C8_digest (σ : Type) (H : StreamHash σ)
    (Hincr : ∀ (s : σ) (a b : List Nat), H.update s (a ++ b) = H.update (H.update s a) b)
    (Hnil : ∀ s : σ, H.update s [] = s) :
    (∀ content : List Nat,
      compute_file_hash H content = H.hexdigest (H.update H.init content)) ∧
    (∀ (content : List Nat) (c : Nat), 0 < c →
      H.hexdigest (hashLoop H c H.init content) = compute_file_hash H content) ∧
    (compute_file_hash_io H none = Except.error "IOError") ∧
    (∀ content : List Nat,
      compute_file_hash_io H (some content) = Except.ok (compute_file_hash H content)) := by
  have hmain : ∀ (c : Nat), 0 < c → ∀ content : List Nat,
      hashLoop H c H.init content = H.update H.init content := fun c hc content =>
    hashLoop_eq_update H Hincr Hnil c hc content.length content (Nat.le_refl _) H.init
  refine ⟨?_, ?_, rfl, fun _ => rfl⟩
  · intro content
    unfold compute_file_hash
    rw [hmain 8192 (by omega) content]
  · intro content c hc
    unfold compute_file_hash
    rw [hmain 8192 (by omega) content, hmain c hc content]

/-- Concrete streaming hash for the witness: the state is the byte sequence
consumed so far. -/
def listHash : StreamHash (List Nat) :=
  { init := [], update := fun s c => s ++ c, hexdigest := fun s => toString s }

/-- C8 (witness): the digest theorem applied to the concrete list-state
hash and the content `[1, 2, 3]`. -/
theorem claim_C8_digest_witness :
    compute_file_hash listHash [1, 2, 3] =
      listHash.hexdigest (listHash.update listHash.init [1, 2, 3]) :=
  (claim_C8_digest (List Nat) listHash
    (fun s a b => (List.append_assoc s a b).symm)
    (fun s => List.append_nil s)).1 [1, 2, 3]

/-! ### Scan orchestrator (scanner.py, `scan_directory` / `discover_files`)

One discovered file is a path plus a failure oracle: `failMsg = some m`
means some step of the per-file `try` body — metadata extraction, the junk
check or the upsert — raises an exception rendering as `m`.  `cbOutcome n`
is the progress-callback oracle: `some m` means a callback was supplied and
raised `m` when invoked as `progress_callback(n, total)`; `none` covers both
"no callback" and a callback that returns normally.  The callback is invoked
inside the same `try`, after `files_processed += 1`, whenever
`(i + 1) % 10 == 0` (scanner.py lines 320-321). -/

structure ScanFile where
  path : String
  failMsg : Option String
deriving DecidableEq, Repr

/-- `get_file_type` (scanner.py lines 38-45). -/
def get_file_type (filepath : String) : String :=
  if IMAGE_EXTENSIONS.contains (strToLower (splitextExt filepath)) then "image"
  else if VIDEO_EXTENSIONS.contains (strToLower (splitextExt filepath)) then "video"
  else "unknown"

/-- The per-entry filter of `discover_files` (scanner.py lines 30-35):
skip hidden names, keep known media extensions. -/
def discoverKeep (f : ScanFile) : Bool :=
  !startsWithDot (basename f.path) &&
  (IMAGE_EXTENSIONS.contains (strToLower (splitextExt f.path)) ||
   VIDEO_EXTENSIONS.contains (strToLower (splitextExt f.path)))

structure ScanStats where
  files_found : Nat
  files_processed : Nat
  errors : List String
  upserts : List String
deriving DecidableEq, Repr

def initScanStats : ScanStats :=
  { files_found := 0, files_processed := 0, errors := [], upserts := [] }

/-- One iteration of the scan loop (scanner.py lines 300-325) for the file
at index `i` of the discovered list.  All paths increment `files_found`;
a non-media type is skipped (`continue`); a raising step records one
"path: message" error; a success upserts once and increments
`files_processed`, after which a raising progress callback is caught by the
same per-file handler and records an error too. -/
def scanStep (cbOutcome : Nat → Option String) (i : Nat) (st : ScanStats)
    (f : ScanFile) : ScanStats :=
  if get_file_type f.path == "image" || get_file_type f.path == "video" then
    match f.failMsg with
    | some m =>
      { st with files_found := st.files_found + 1,
                errors := st.errors ++ [f.path ++ ": " ++ m] }
    | none =>
      if (i + 1) % 10 == 0 then
        match cbOutcome (i + 1) with
        | some m =>
          { st with files_found := st.files_found + 1,
                    files_processed := st.files_processed + 1,
                    upserts := st.upserts ++ [f.path],
                    errors := st.errors ++ [f.path ++ ": " ++ m] }
        | none =>
          { st with files_found := st.files_found + 1,
                    files_processed := st.files_processed + 1,
                    upserts := st.upserts ++ [f.path] }
      else
        { st with files_found := st.files_found + 1,
                  files_processed := st.files_processed + 1,
                  upserts := st.upserts ++ [f.path] }
  else { st with files_found := st.files_found + 1 }

def scanLoop (cbOutcome : Nat → Option String) :
    Nat → List ScanFile → ScanStats → ScanStats
  | _, [], st => st
  | i, f :: rest, st => scanLoop cbOutcome (i + 1) rest (scanStep cbOutcome i st f)

/-- `scan_directory` (scanner.py lines 285-345), restricted to the stats it
returns: walk the discovered media files, process each, count and record. -/
def scan_directory (cbOutcome : Nat → Option String) (entries : List ScanFile) :
    ScanStats :=
  scanLoop cbOutcome 0 (entries.filter discoverKeep) initScanStats

/-- Discovery only yields paths whose extension is a known media extension,
so the `continue` branch for "unknown" is unreachable inside the scan. -/
theorem discoverKeep_media (f : ScanFile) (h : discoverKeep f = true) :
    (get_file_type f.path == "image" || get_file_type f.path == "video") = true := by
  unfold discoverKeep at h
  rw [Bool.and_eq_true] at h
  unfold get_file_type
  rcases (Bool.or_eq_true _ _).mp h.2 with himg | hvid
  · rw [if_pos himg]
    rfl
  · by_cases himg : IMAGE_EXTENSIONS.contains (strToLower (splitextExt f.path)) = true
    · rw [if_pos himg]
      rfl
    · rw [if_neg himg, if_pos hvid]
      rfl

theorem length_filter_split {α : Type} (p : α → Bool) (l : List α) :
    (l.filter p).length + (l.filter (fun a => !(p a))).length = l.length := by
  induction l with
  | nil => rfl
  | cons x t ih =>
    by_cases hx : p x = true <;> simp [List.filter_cons, hx, ← ih] <;> omega

theorem scanLoop_spec (cbOutcome : Nat → Option String)
    (hcb : ∀ n, cbOutcome n = none) :
    ∀ (files : List ScanFile) (i : Nat) (st : ScanStats),
      (∀ f ∈ files, discoverKeep f = true) →
      (scanLoop cbOutcome i files st).files_found = st.files_found + files.length ∧
      (scanLoop cbOutcome i files st).files_processed =
        st.files_processed + (files.filter (fun f => f.failMsg == none)).length ∧
      (scanLoop cbOutcome i files st).upserts =
        st.upserts ++ (files.filter (fun f => f.failMsg == none)).map ScanFile.path ∧
      (scanLoop cbOutcome i files st).errors =
        st.errors ++ (files.filter (fun f => !(f.failMsg == none))).map
          (fun f => f.path ++ ": " ++ f.failMsg.getD "") := by
  intro files
  induction files with
  | nil =>
    intro i st _
    refine ⟨rfl, rfl, by simp [scanLoop], by simp [scanLoop]⟩
  | cons f rest ih =>
    intro i st hkeep
    have hmedia := discoverKeep_media f (hkeep f (List.mem_cons_self _ _))
    have hrest : ∀ g ∈ rest, discoverKeep g = true :=
      fun g hg => hkeep g (List.mem_cons_of_mem _ hg)
    have hstep : scanLoop cbOutcome i (f :: rest) st =
        scanLoop cbOutcome (i + 1) rest (scanStep cbOutcome i st f) := rfl
    rw [hstep]
    obtain ⟨ih1, ih2, ih3, ih4⟩ := ih (i + 1) (scanStep cbOutcome i st f) hrest
    cases hfail : f.failMsg with
    | some m =>
      have hse : scanStep cbOutcome i st f =
          { st with files_found := st.files_found + 1,
                    errors := st.errors ++ [f.path ++ ": " ++ m] } := by
        unfold scanStep
        rw [if_pos hmedia, hfail]
      rw [hse] at ih1 ih2 ih3 ih4
      rw [hse]
      refine ⟨?_, ?_, ?_, ?_⟩
      · rw [ih1]
        simp
        omega
      · rw [ih2]
        simp [List.filter_cons, hfail]
      · rw [ih3]
        simp [List.filter_cons, hfail]
      · rw [ih4]
        simp [List.filter_cons, hfail]
    | none =>
      have hse : scanStep cbOutcome i st f =
          { st with files_found := st.files_found + 1,
                    files_processed := st.files_processed + 1,
                    upserts := st.upserts ++ [f.path] } := by
        unfold scanStep
        rw [if_pos hmedia, hfail]
        by_cases hmod : ((i + 1) % 10 == 0) = true
        · rw [if_pos hmod, hcb (i + 1)]
        · rw [if_neg hmod]
      rw [hse] at ih1 ih2 ih3 ih4
      rw [hse]
      refine ⟨?_, ?_, ?_, ?_⟩
      · rw [ih1]
        simp
        omega
      · rw [ih2]
        simp [List.filter_cons, hfail]
        omega
      · rw [ih3]
        simp [List.filter_cons, hfail]
      · rw [ih4]
        simp [List.filter_cons, hfail]

/-- Ten media files that all process successfully; the tenth triggers the
progress callback. -/
def c9files : List ScanFile :=
  (List.range 10).map (fun k => { path := s!"/pics/img{k}.jpg", failMsg := none })

/-- C9 (counterexample): with a progress callback that raises, the tenth
file is counted in `files_processed` AND contributes an error entry (the
callback call sits inside the per-file `try`, after the increment), so
`files_found = files_processed + len(errors)` fails: 10 ≠ 10 + 1. -/
theorem claim_C9_counterexample :
    ((scan_directory (fun _ => some "callback exception") c9files).files_found = 10) ∧
    ((scan_directory (fun _ => some "callback exception") c9files).files_processed = 10) ∧
    ((scan_directory (fun _ => some "callback exception") c9files).errors.length = 1) ∧
    ¬ ((scan_directory (fun _ => some "callback exception") c9files).files_found =
        (scan_directory (fun _ => some "callback exception") c9files).files_processed +
          (scan_directory (fun _ => some "callback exception") c9files).errors.length) := by
  refine ⟨?_, ?_, ?_, ?_⟩ <;> decide

/-- C9 (amended): provided the progress callback (when supplied) never
raises, the returned stats satisfy
`files_found = files_processed + errors.length`: every discovered media
file either is upserted exactly once and counted in `files_processed`, or
contributes exactly one "path: message" entry to `errors`, and no file does
both.  (`upserts` lists the successful files' paths in order, `errors` the
failing files' entries in order, and `files_found` counts all discovered
media files.) -/
theorem claim_C9_scan_accounting (cbOutcome : Nat → Option String)
    (entries : List ScanFile) (hcb : ∀ n, cbOutcome n = none) :
    (scan_directory cbOutcome entries).files_found =
      (scan_directory cbOutcome entries).files_processed +
        (scan_directory cbOutcome entries).errors.length ∧
    (scan_directory cbOutcome entries).upserts =
      ((entries.filter discoverKeep).filter (fun f => f.failMsg == none)).map
        ScanFile.path ∧
    (scan_directory cbOutcome entries).errors =
      ((entries.filter discoverKeep).filter (fun f => !(f.failMsg == none))).map
        (fun f => f.path ++ ": " ++ f.failMsg.getD "") ∧
    (scan_directory cbOutcome entries).files_found =
      (entries.filter discoverKeep).length := by
  have hkeep : ∀ f ∈ entries.filter discoverKeep, discoverKeep f = true :=
    fun f hf => (List.mem_filter.mp hf).2
  obtain ⟨h1, h2, h3, h4⟩ :=
    scanLoop_spec cbOutcome hcb (entries.filter discoverKeep) 0 initScanStats hkeep
  have hsplit := length_filter_split (fun f : ScanFile => f.failMsg == none)
    (entries.filter discoverKeep)
  have hdef : scan_directory cbOutcome entries =
      scanLoop cbOutcome 0 (entries.filter discoverKeep) initScanStats := rfl
  rw [hdef]
  refine ⟨?_, ?_, ?_, ?_⟩
  · rw [h1, h2, h4, List.length_append, List.length_map]
    simp only [initScanStats, List.length_nil, Nat.zero_add]
    simp at hsplit ⊢
    omega
  · rw [h3]
    simp [initScanStats]
  · rw [h4]
    simp [initScanStats]
  · rw [h1]
    simp [initScanStats]

/-- A successful image, a failing image, a non-media file, a hidden file
and a successful video. -/
def c9wfiles : List ScanFile :=
  [{ path := "/d/ok.jpg", failMsg := none },
   { path := "/d/bad.png", failMsg := some "cannot identify image file" },
   { path := "/d/notes.txt", failMsg := none },
   { path := "/d/.hidden.jpg", failMsg := none },
   { path := "/d/clip.mp4", failMsg := none }]

/-- C9 (amended, witness): the accounting theorem applied to a concrete
5-entry directory with a raise-free callback. -/
theorem claim_C9_scan_accounting_witness :
    (scan_directory (fun _ => none) c9wfiles).files_found =
      (scan_directory (fun _ => none) c9wfiles).files_processed +
        (scan_directory (fun _ => none) c9wfiles).errors.length ∧
    (scan_directory (fun _ => none) c9wfiles).upserts = ["/d/ok.jpg", "/d/clip.mp4"] ∧
    (scan_directory (fun _ => none) c9wfiles).errors =
      ["/d/bad.png: cannot identify image file"] := by
  obtain ⟨h1, h2, h3, _⟩ := claim_C9_scan_accounting (fun _ => none) c9wfiles (fun _ => rfl)
  refine ⟨h1, ?_, ?_⟩
  · rw [h2]
    decide
  · rw [h3]
    decide

/-! ### Persistence layer (database.py, `upsert_file`)

A row of the `files` table is its rowid plus an association list of
columns to SQLite values, in schema order.  Python dict values are modelled
by `Value`; `json.dumps` serialization of list values (database.py lines
125 and 135) becomes `serialize`. -/

inductive Value where
  | null
  | int (n : Int)
  | str (s : String)
  | arr (xs : List String)
deriving DecidableEq, Repr

/-- `json.dumps` of the one non-scalar payload the pipeline stores: the
`tags` list of strings (default separators, as the code calls it). -/
def dumpValue : Value → String
  | .null => "null"
  | .int n => toString n
  | .str s => "\"" ++ s ++ "\""
  | .arr xs =>
      "[" ++ String.intercalate ", " (xs.map (fun s => "\"" ++ s ++ "\"")) ++ "]"

/-- `json.dumps(v) if isinstance(v, (list, dict)) else v`: only list values
are serialized to their JSON text; scalars pass through unchanged. -/
def serialize : Value → Value
  | .arr xs => .str (dumpValue (.arr xs))
  | v => v

/-- The `files` table columns (database.py lines 25-50), in schema order. -/
def schemaColumns : List String :=
  ["filepath", "filename", "original_filename", "file_type", "file_size",
   "file_hash", "perceptual_hash", "width", "height", "created_date",
   "modified_date", "exif_data", "description", "tags", "ai_analyzed",
   "is_duplicate", "duplicate_of", "is_junk", "junk_reason", "scan_date"]

/-- Schema DEFAULTs for columns absent from an INSERT: `ai_analyzed`,
`is_duplicate` and `is_junk` default to 0, everything else to NULL. -/
def defaultValue (col : String) : Value :=
  if col == "ai_analyzed" || col == "is_duplicate" || col == "is_junk"
  then Value.int 0 else Value.null

structure Row where
  id : Nat
  fields : List (String × Value)
deriving DecidableEq, Repr

/-- `UPDATE ... SET k = v`: assign column `k` in a row's field list. -/
def applySet (fs : List (String × Value)) (k : String) (v : Value) :
    List (String × Value) :=
  fs.map (fun kv => if kv.1 == k then (kv.1, v) else kv)

/-- Apply all SET clauses of one UPDATE statement in order. -/
def updateRow (r : Row) (sets : List (String × Value)) : Row :=
  { r with fields := sets.foldl (fun fs kv => applySet fs kv.1 (serialize kv.2)) r.fields }

/-- AUTOINCREMENT rowid for a fresh INSERT. -/
def nextId (db : List Row) : Nat := (db.map Row.id).foldr max 0 + 1

/-- `upsert_file` (database.py lines 112-140): SELECT the row whose
`filepath` equals `file_data["filepath"]`; if found, UPDATE exactly the
non-filepath keys of `file_data` on every matching row (the UNIQUE
constraint allows at most one) and return the found id; otherwise INSERT
one new row taking the (serialized) `file_data` values and schema defaults
elsewhere, returning the fresh rowid.  `none` models the `KeyError` raised
when `file_data` has no "filepath" key; column names are assumed to be
schema columns (anything else would make the SQL statement itself fail). -/
def upsert_file (db : List Row) (file_data : List (String × Value)) :
    Option (List Row × Nat) :=
  match file_data.lookup "filepath" with
  | none => none
  | some fpv =>
    match db.find? (fun r => r.fields.lookup "filepath" == some fpv) with
    | some existing =>
      some (db.map (fun r =>
        if r.fields.lookup "filepath" == some fpv
        then updateRow r (file_data.filter (fun kv => kv.1 != "filepath")) else r),
        existing.id)
    | none =>
      some (db ++
        [{ id := nextId db,
           fields := schemaColumns.map (fun c =>
             (c, match file_data.lookup c with
                 | some v => serialize v
                 | none => defaultValue c)) }],
        nextId db)

theorem applySet_lookup_other (fs : List (String × Value)) (k : String) (v : Value)
    (c : String) (hne : c ≠ k) : (applySet fs k v).lookup c = fs.lookup c := by
  induction fs with
  | nil => rfl
  | cons kv rest ih =>
    obtain ⟨k0, v0⟩ := kv
    unfold applySet
    rw [List.map_cons]
    by_cases hk : (k0 == k) = true
    · rw [if_pos hk]
      rw [List.lookup_cons, List.lookup_cons]
      have hck : (c == k0) = false := by
        rw [beq_iff_eq] at hk
        subst hk
        simp [hne]
      rw [hck]
      exact ih
    · rw [if_neg hk]
      rw [List.lookup_cons, List.lookup_cons]
      by_cases hck : (c == k0) = true
      · rw [hck]
      · rw [Bool.not_eq_true] at hck
        rw [hck]
        exact ih

theorem applySet_lookup_self (fs : List (String × Value)) (k : String) (v : Value)
    (hsome : (fs.lookup k).isSome = true) : (applySet fs k v).lookup k = some v := by
  induction fs with
  | nil => simp [List.lookup] at hsome
  | cons kv rest ih =>
    obtain ⟨k0, v0⟩ := kv
    unfold applySet
    rw [List.map_cons]
    by_cases hk : (k0 == k) = true
    · rw [if_pos hk]
      rw [List.lookup_cons]
      have hkk : (k == k0) = true := by
        rw [beq_iff_eq] at hk ⊢
        exact hk.symm
      rw [hkk]
    · rw [if_neg hk]
      rw [List.lookup_cons]
      have hkk : (k == k0) = false := by
        rw [Bool.eq_false_iff]
        intro hc
        rw [beq_iff_eq] at hc hk
        exact hk hc.symm
      rw [hkk]
      apply ih
      rw [List.lookup_cons, hkk] at hsome
      exact hsome

theorem foldl_applySet_lookup_not_mem (sets : List (String × Value)) :
    ∀ (fs : List (String × Value)) (c : String), c ∉ sets.map Prod.fst →
      (sets.foldl (fun fs kv => applySet fs kv.1 (serialize kv.2)) fs).lookup c =
        fs.lookup c := by
  induction sets with
  | nil => intro fs c _; rfl
  | cons kv rest ih =>
    intro fs c hc
    rw [List.map_cons, List.mem_cons] at hc
    push_neg at hc
    rw [List.foldl_cons, ih _ c hc.2, applySet_lookup_other fs kv.1 _ c hc.1]

theorem lookup_isSome_of_mem_keys (fs : List (String × Value)) (c : String)
    (h : c ∈ fs.map Prod.fst) : (fs.lookup c).isSome = true := by
  induction fs with
  | nil => simp at h
  | cons kv rest ih =>
    obtain ⟨k0, v0⟩ := kv
    rw [List.lookup_cons]
    by_cases hck : (c == k0) = true
    · rw [hck]
      rfl
    · rw [Bool.not_eq_true] at hck
      rw [hck]
      apply ih
      rw [List.map_cons, List.mem_cons] at h
      rcases h with h | h
      · rw [← beq_iff_eq (a := c) (b := k0)] at h
        rw [h] at hck
        cases hck
      · exact h

theorem applySet_keys (fs : List (String × Value)) (k : String) (v : Value) :
    (applySet fs k v).map Prod.fst = fs.map Prod.fst := by
  unfold applySet
  rw [List.map_map]
  apply List.map_congr_left
  intro kv _
  by_cases hk : kv.1 = k
  · simp [hk]
  · simp [hk]

theorem foldl_applySet_lookup_mem (sets : List (String × Value)) :
    ∀ (fs : List (String × Value)) (c : String) (v : Value),
      (sets.map Prod.fst).Nodup → (c, v) ∈ sets → (fs.lookup c).isSome = true →
      (sets.foldl (fun fs kv => applySet fs kv.1 (serialize kv.2)) fs).lookup c =
        some (serialize v) := by
  induction sets with
  | nil => intro fs c v _ hmem _; cases hmem
  | cons kv rest ih =>
    intro fs c v hnodup hmem hsome
    rw [List.map_cons, List.nodup_cons] at hnodup
    rw [List.foldl_cons]
    rcases List.mem_cons.mp hmem with heq | hmem'
    · cases heq
      have hrest : c ∉ rest.map Prod.fst := hnodup.1
      rw [foldl_applySet_lookup_not_mem rest _ c hrest,
        applySet_lookup_self fs c _ hsome]
    · have hne : c ≠ kv.1 := by
        intro he
        apply hnodup.1
        have hx : c ∈ List.map Prod.fst rest := List.mem_map_of_mem Prod.fst hmem'
        rwa [he] at hx
      apply ih _ c v hnodup.2 hmem'
      rw [applySet_lookup_other fs kv.1 _ c hne]
      exact hsome

/-- C10: `upsert_file` is frame-preserving.  When `file_data`'s filepath
already exists: no row is created, every row with a different filepath is
returned untouched at its position, and on the matching row only the
columns named in `file_data` change (to their serialized values) — every
column not named (description, tags, ai_analyzed, is_duplicate,
duplicate_of, ...) and the filepath itself keep their old values, and the
existing rowid is returned.  When the filepath is new: exactly one row is
appended, every existing row is returned unchanged at its position, and the
new row carries the given filepath. -/
theorem claim_C10_upsert_frame (db : List Row) (file_data : List (String × Value))
    (fpv : Value) (hfp : file_data.lookup "filepath" = some fpv)
    (hnodupkeys : (file_data.map Prod.fst).Nodup)
    (hwf : ∀ r ∈ db, r.fields.map Prod.fst = schemaColumns) :
    (∀ existing : Row,
      db.find? (fun r => r.fields.lookup "filepath" == some fpv) = some existing →
      ∃ db', upsert_file db file_data = some (db', existing.id) ∧
        db'.length = db.length ∧
        (∀ (i : Nat) (r : Row), db[i]? = some r →
          r.fields.lookup "filepath" ≠ some fpv → db'[i]? = some r) ∧
        (∀ (i : Nat) (r : Row), db[i]? = some r →
          r.fields.lookup "filepath" = some fpv →
          ∃ r', db'[i]? = some r' ∧ r'.id = r.id ∧
            (∀ c : String, c ∉ file_data.map Prod.fst →
              r'.fields.lookup c = r.fields.lookup c) ∧
            (∀ (c : String) (v : Value), (c, v) ∈ file_data → c ≠ "filepath" →
              c ∈ schemaColumns → r'.fields.lookup c = some (serialize v)) ∧
            r'.fields.lookup "filepath" = r.fields.lookup "filepath")) ∧
    (db.find? (fun r => r.fields.lookup "filepath" == some fpv) = none →
      ∃ nr : Row, upsert_file db file_data = some (db ++ [nr], nr.id) ∧
        (db ++ [nr]).length = db.length + 1 ∧
        (∀ (i : Nat) (r : Row), db[i]? = some r → (db ++ [nr])[i]? = some r) ∧
        nr.fields.lookup "filepath" = some (serialize fpv)) := by
  constructor
  · intro existing hfind
    have hdef : upsert_file db file_data = some (db.map (fun r =>
        if r.fields.lookup "filepath" == some fpv
        then updateRow r (file_data.filter (fun kv => kv.1 != "filepath")) else r),
        existing.id) := by
      simp [upsert_file, hfp, hfind]
    refine ⟨_, hdef, List.length_map _ _, ?_, ?_⟩
    · intro i r hget hne
      rw [List.getElem?_map, hget, Option.map_some']
      have hcond : (r.fields.lookup "filepath" == some fpv) = false := by
        rw [Bool.eq_false_iff]
        intro hc
        exact hne (by simpa using hc)
      rw [if_neg (by rw [hcond]; exact Bool.false_ne_true)]
    · intro i r hget heq
      have hcond : (r.fields.lookup "filepath" == some fpv) = true := by
        simp [heq]
      set sets := file_data.filter (fun kv => kv.1 != "filepath") with hsets
      refine ⟨updateRow r sets, ?_, rfl, ?_, ?_, ?_⟩
      · rw [List.getElem?_map, hget, Option.map_some', if_pos hcond]
      · intro c hc
        apply foldl_applySet_lookup_not_mem
        intro hcm
        apply hc
        obtain ⟨kv, hkv, hkve⟩ := List.mem_map.mp hcm
        have : kv ∈ file_data := (List.mem_filter.mp hkv).1
        exact hkve ▸ List.mem_map_of_mem Prod.fst this
      · intro c v hmem hne hcs
        apply foldl_applySet_lookup_mem
        · have hsub : (sets.map Prod.fst).Sublist (file_data.map Prod.fst) :=
            List.Sublist.map Prod.fst (List.filter_sublist file_data)
          exact List.Nodup.sublist hsub hnodupkeys
        · rw [hsets]
          rw [List.mem_filter]
          refine ⟨hmem, ?_⟩
          simp [hne]
        · apply lookup_isSome_of_mem_keys
          rw [hwf r (List.getElem?_mem hget)]
          exact hcs
      · apply foldl_applySet_lookup_not_mem
        intro hcm
        obtain ⟨kv, hkv, hkve⟩ := List.mem_map.mp hcm
        have hkvf := (List.mem_filter.mp hkv).2
        rw [hkve] at hkvf
        simp at hkvf
  · intro hfind
    have hdef : upsert_file db file_data = some (db ++
        [{ id := nextId db,
           fields := schemaColumns.map (fun c =>
             (c, match file_data.lookup c with
                 | some v => serialize v
                 | none => defaultValue c)) }],
        nextId db) := by
      simp [upsert_file, hfp, hfind]
    refine ⟨_, hdef, by simp, ?_, ?_⟩
    · intro i r hget
      rw [List.getElem?_append]
      have hlt : i < db.length := by
        rcases List.getElem?_eq_some.mp hget with ⟨h, _⟩
        exact h
      rw [if_pos hlt]
      exact hget
    · show (schemaColumns.map (fun c =>
        (c, match file_data.lookup c with
            | some v => serialize v
            | none => defaultValue c))).lookup "filepath" = some (serialize fpv)
      rw [show schemaColumns = "filepath" :: schemaColumns.tail from rfl]
      rw [List.map_cons, List.lookup_cons]
      rw [hfp]
      rfl

/-- One existing row: filepath "/d/a.jpg", description "sunset", everything
else at its schema default. -/
def c10row : Row :=
  { id := 1,
    fields := schemaColumns.map (fun c =>
      if c == "filepath" then (c, Value.str "/d/a.jpg")
      else if c == "description" then (c, Value.str "sunset")
      else (c, defaultValue c)) }

def c10db : List Row := [c10row]

/-- A re-scan's upsert payload: same filepath, a new size, new tags. -/
def c10data : List (String × Value) :=
  [("filepath", Value.str "/d/a.jpg"), ("file_size", Value.int 42),
   ("tags", Value.arr ["beach"])]

/-- C10 (witness): the frame theorem instantiated on the one-row store —
the update keeps id 1, rewrites `file_size` and `tags` (serialized), and
leaves `description` and `filepath` untouched. -/
theorem claim_C10_upsert_frame_witness :
    ∃ (db' : List Row) (r' : Row),
      upsert_file c10db c10data = some (db', 1) ∧
      db'[0]? = some r' ∧ r'.id = 1 ∧
      r'.fields.lookup "description" = c10row.fields.lookup "description" ∧
      r'.fields.lookup "file_size" = some (Value.int 42) ∧
      r'.fields.lookup "filepath" = c10row.fields.lookup "filepath" := by
  obtain ⟨hupd, _⟩ := claim_C10_upsert_frame c10db c10data (Value.str "/d/a.jpg")
    (by decide) (by decide) (by decide)
  obtain ⟨db', heq, _, _, hmatch⟩ := hupd c10row (by decide)
  obtain ⟨r', hr', hid, hnotmem, hmem, hfp'⟩ := hmatch 0 c10row (by decide) (by decide)
  exact ⟨db', r', heq, hr', by rw [hid]; rfl, hnotmem "description" (by decide),
    hmem "file_size" (Value.int 42) (by decide) (by decide) (by decide), hfp'⟩

end PhotoTagger
